import Mathlib

/-!
# Verification of the AniSongLibrary catalog import/reconciliation pipeline

Shallow embedding of the catalog import logic of the repository:

* `backend/catalog/app/services/anisong_importer.py` — entity
  resolver/upserter (`_get_or_create_person`, `_get_or_create_song`,
  `_ensure_credit_by_id`, `_ensure_membership`, `_upsert_artist_entity`,
  `_link_once`, `_row_matches_anime`, `import_songs_for_anime`),
* `backend/catalog/app/clients/anisongdb.py` — payload parsing
  (`parse_use_type_and_seq`, `explode_names_from_string`),
* `backend/catalog/scripts/scrape_amq_master_list.py` and
  `backend/catalog/scripts/sync_amq_master_list.py` — batch drivers.

The relational state (tables `people`, `song`, `song_anime`, `song_artist`,
`people_membership` from `backend/catalog/app/db/models.py`) is modelled as
lists of rows; UUID primary keys are modelled by a fresh-`Nat` counter
(`nextId`).  Columns never read or written by the embedded code paths
(timestamps, `image_url`, `external_links`, `amq_song_id`) are omitted.
SQLAlchemy's `.first()` on an unordered query is modelled as the first row
in table (insertion) order.  Strings are treated as sequences of their
codepoints; `str.lower`/`str.strip` are modelled on the ASCII range used by
the data under test.
-/

namespace AniSong

/-- Python whitespace for `str.strip` / regex `\s` (ASCII range). -/
def isPySpace (c : Char) : Bool :=
  c = ' ' ∨ c = '\t' ∨ c = '\n' ∨ c = '\x0d' ∨ c = '\x0b' ∨ c = '\x0c'

/-- `str.strip()` on a character list. -/
def pyStripChars (cs : List Char) : List Char :=
  ((cs.dropWhile isPySpace).reverse.dropWhile isPySpace).reverse

/-- Python `s.strip()`. -/
def pyStrip (s : String) : String :=
  String.mk (pyStripChars s.data)

/-- Row of the `people` table (`models.People`): surrogate id, `kind`
(`'person' | 'group'`), `primary_name`, `alt_names`, nullable unique
`anisongdb_id`. -/
structure Person where
  id : Nat
  kind : String
  primary_name : String
  alt_names : List String
  anisongdb_id : Option Int
deriving DecidableEq, Repr

/-- Row of the `song` table (`models.Song`): id, `name`, `audio`. -/
structure SongRowDB where
  id : Nat
  name : String
  audio : String
deriving DecidableEq, Repr

/-- Row of the `song_anime` junction table (`models.SongAnime`). -/
structure SongAnimeRow where
  song_id : Nat
  anime_id : Nat
  use_type : String
  sequence : Option Int
  notes : Option String
  is_dub : Bool
  is_rebroadcast : Bool
deriving DecidableEq, Repr

/-- Row of the `song_artist` table (`models.SongArtist`), PK
`(song_id, people_id, role)`. -/
structure SongCredit where
  song_id : Nat
  people_id : Nat
  role : String
deriving DecidableEq, Repr

/-- Row of the `people_membership` table (`models.PeopleMembership`), PK
`(group_id, member_id)`. -/
structure Membership where
  group_id : Nat
  member_id : Nat
deriving DecidableEq, Repr

/-- The catalog database state used by the importer: the five tables that
the imports write, plus a fresh-id counter standing in for `uuid4`. -/
structure CatalogDB where
  people : List Person
  songs : List SongRowDB
  links : List SongAnimeRow
  credits : List SongCredit
  memberships : List Membership
  nextId : Nat
deriving DecidableEq, Repr

/-- `db.query(People).filter(People.anisongdb_id == i).first()`. -/
def findByAid : List Person → Int → Option Person
  | [], _ => none
  | p :: rest, i => if p.anisongdb_id = some i then some p else findByAid rest i

/-- `db.query(People).filter(People.primary_name == name).first()`. -/
def findByName : List Person → String → Option Person
  | [], _ => none
  | p :: rest, nm => if p.primary_name = nm then some p else findByName rest nm

/-- Look a person up by primary key. -/
def findById : List Person → Nat → Option Person
  | [], _ => none
  | p :: rest, i => if p.id = i then some p else findById rest i

/-- `db.query(Song).filter(Song.name == name).first()`. -/
def findSongByName : List SongRowDB → String → Option SongRowDB
  | [], _ => none
  | s :: rest, nm => if s.name = nm then some s else findSongByName rest nm

/-- Write back a mutated ORM `People` row: replace the row with its primary
key (`id` is never mutated by the importer). -/
def updatePerson (db : CatalogDB) (p : Person) : CatalogDB :=
  { db with people := db.people.map (fun q => if q.id = p.id then p else q) }

/-- Write back a mutated ORM `Song` row. -/
def updateSong (db : CatalogDB) (s : SongRowDB) : CatalogDB :=
  { db with songs := db.songs.map (fun q => if q.id = s.id then s else q) }

/-- `_get_or_create_person`, name-lookup half: find by `primary_name`,
backfill `anisongdb_id` when it was null, upgrade `kind` to `'group'`;
otherwise create a fresh row. -/
def personByNameOrCreate (db : CatalogDB) (name : String) (aid : Option Int)
    (kind : String) : Person × CatalogDB :=
  match findByName db.people name with
  | some row =>
      let row1 := if aid ≠ none ∧ row.anisongdb_id = none then
        { row with anisongdb_id := aid } else row
      let row2 := if kind = ("group") ∧ row1.kind ≠ ("group") then
        { row1 with kind := ("group") } else row1
      (row2, updatePerson db row2)
  | none =>
      let p : Person := ⟨db.nextId, kind, name, [], aid⟩
      (p, { db with people := db.people ++ [p], nextId := db.nextId + 1 })

/-- `_get_or_create_person` (anisong_importer.py lines 136–180): prefer
lookup by `anisongdb_id`, else by `primary_name`, else create.  In the
by-id branch the `kind` may be upgraded to `'group'` and `name` added as an
alt-name. -/
def getOrCreatePerson (db : CatalogDB) (name : String) (aid : Option Int)
    (kind : String) : Person × CatalogDB :=
  match aid with
  | some i =>
      match findByAid db.people i with
      | some row =>
          let row1 := if kind = ("group") ∧ row.kind ≠ ("group") then
            { row with kind := ("group") } else row
          let row2 := if name ≠ ("") ∧ row1.primary_name ≠ name ∧
              ¬ name ∈ row1.alt_names then
            { row1 with alt_names := row1.alt_names ++ [name] } else row1
          (row2, updatePerson db row2)
      | none => personByNameOrCreate db name aid kind
  | none => personByNameOrCreate db name aid kind

/-- `_get_or_create_song` (lines 183–192): find by `name`; on a hit set
`audio` only when the incoming value is truthy and the stored one is empty;
else insert `Song(name=name, audio=audio or "")`.  (`audio or ""` is the
identity on strings.) -/
def getOrCreateSong (db : CatalogDB) (name : String) (audio : String) :
    SongRowDB × CatalogDB :=
  match findSongByName db.songs name with
  | some row =>
      let row1 := if audio ≠ ("") ∧ row.audio = ("") then
        { row with audio := audio } else row
      (row1, updateSong db row1)
  | none =>
      let s : SongRowDB := ⟨db.nextId, name, audio⟩
      (s, { db with songs := db.songs ++ [s], nextId := db.nextId + 1 })

/-- `_ensure_credit_by_id` (lines 202–207): `INSERT .. ON CONFLICT
(song_id, people_id, role) DO NOTHING`; the conflict target is the full
primary key, so this inserts the row exactly when it is absent. -/
def ensureCreditById (db : CatalogDB) (songId peopleId : Nat) (role : String) :
    CatalogDB :=
  let c : SongCredit := ⟨songId, peopleId, role⟩
  if c ∈ db.credits then db else { db with credits := db.credits ++ [c] }

/-- `_ensure_credit` (lines 195–199): resolve the person by name (default
`kind='person'`), then insert the credit with conflict-do-nothing. -/
def ensureCredit (db : CatalogDB) (songId : Nat) (peopleName : String)
    (role : String) (aid : Option Int) : CatalogDB :=
  let pdb := getOrCreatePerson db peopleName aid ("person")
  ensureCreditById pdb.2 songId pdb.1.id role

/-- `_ensure_membership` (lines 210–219): `INSERT .. ON CONFLICT
(group_id, member_id) DO NOTHING` on the full primary key. -/
def ensureMembership (db : CatalogDB) (groupId memberId : Nat) : CatalogDB :=
  let e : Membership := ⟨groupId, memberId⟩
  if e ∈ db.memberships then db
  else { db with memberships := db.memberships ++ [e] }

/-- The `SET` clause of `_link_once`'s `ON CONFLICT DO UPDATE`: OR the two
booleans, `COALESCE(song_anime.notes, EXCLUDED.notes)` for notes; the key
columns are untouched. -/
def songAnimeMerge (old incoming : SongAnimeRow) : SongAnimeRow :=
  { old with
    is_dub := old.is_dub || incoming.is_dub,
    is_rebroadcast := old.is_rebroadcast || incoming.is_rebroadcast,
    notes := match old.notes with
      | some s => some s
      | none => incoming.notes }

/-- Arbitration condition of `ON CONFLICT ON CONSTRAINT
uq_song_anime_usage`: the unique constraint is on `(song_id, anime_id,
use_type, sequence)` and Postgres unique constraints treat NULLs as
distinct, so a row whose `sequence` is NULL never conflicts. -/
def linkConflict (L vals : SongAnimeRow) : Prop :=
  L.song_id = vals.song_id ∧ L.anime_id = vals.anime_id ∧
    L.use_type = vals.use_type ∧ L.sequence = vals.sequence ∧
    vals.sequence ≠ none

instance (L vals : SongAnimeRow) : Decidable (linkConflict L vals) :=
  inferInstanceAs (Decidable (L.song_id = vals.song_id ∧
    L.anime_id = vals.anime_id ∧ L.use_type = vals.use_type ∧
    L.sequence = vals.sequence ∧ vals.sequence ≠ none))

/-- `INSERT .. ON CONFLICT ON CONSTRAINT uq_song_anime_usage DO UPDATE`:
update the conflicting row when one exists, else insert. -/
def upsertLink : List SongAnimeRow → SongAnimeRow → List SongAnimeRow
  | [], vals => [vals]
  | L :: rest, vals =>
      if linkConflict L vals then songAnimeMerge L vals :: rest
      else L :: upsertLink rest vals

/-- The `VALUES` dict built by `_link_once`: the incoming booleans are
coerced with `bool(is_dub or False)` (i.e. `Option.getD false`). -/
def linkVals (songId animeId : Nat) (useType : String)
    (sequence : Option Int) (notes : Option String)
    (isDub isRebroadcast : Option Bool) : SongAnimeRow :=
  ⟨songId, animeId, useType, sequence, notes,
    isDub.getD false, isRebroadcast.getD false⟩

/-- `_link_once` (lines 281–322). -/
def linkOnce (db : CatalogDB) (songId animeId : Nat) (useType : String)
    (sequence : Option Int) (notes : Option String)
    (isDub isRebroadcast : Option Bool) : CatalogDB :=
  let vals := linkVals songId animeId useType sequence notes isDub isRebroadcast
  { db with links := upsertLink db.links vals }

/-! ## Helper lemmas for the link upsert -/

/-- The empty catalog database. -/
def emptyDB : CatalogDB := ⟨[], [], [], [], [], 0⟩

theorem songAnimeMerge_key (L vals : SongAnimeRow) :
    (songAnimeMerge L vals).song_id = L.song_id ∧
      (songAnimeMerge L vals).anime_id = L.anime_id ∧
      (songAnimeMerge L vals).use_type = L.use_type ∧
      (songAnimeMerge L vals).sequence = L.sequence := by
  simp [songAnimeMerge]

theorem songAnimeMerge_merge (L vals : SongAnimeRow) :
    songAnimeMerge (songAnimeMerge L vals) vals = songAnimeMerge L vals := by
  unfold songAnimeMerge
  cases h : L.notes <;> cases hv : vals.notes <;> simp [h, hv, Bool.or_assoc]

theorem linkConflict_merge (L vals : SongAnimeRow) (h : linkConflict L vals) :
    linkConflict (songAnimeMerge L vals) vals := by
  obtain ⟨h1, h2, h3, h4, h5⟩ := h
  exact ⟨by simp [songAnimeMerge, h1], by simp [songAnimeMerge, h2],
    by simp [songAnimeMerge, h3], by simp [songAnimeMerge, h4], h5⟩

theorem upsertLink_no_conflict (links : List SongAnimeRow)
    (vals : SongAnimeRow) (h : ∀ L ∈ links, ¬ linkConflict L vals) :
    upsertLink links vals = links ++ [vals] := by
  induction links with
  | nil => rfl
  | cons L rest ih =>
      rw [upsertLink, if_neg (h L (by simp))]
      simp [ih (fun K hK => h K (by simp [hK]))]

theorem upsertLink_conflict (pre : List SongAnimeRow) (L : SongAnimeRow)
    (post : List SongAnimeRow) (vals : SongAnimeRow)
    (hpre : ∀ K ∈ pre, ¬ linkConflict K vals) (hL : linkConflict L vals) :
    upsertLink (pre ++ L :: post) vals =
      pre ++ songAnimeMerge L vals :: post := by
  induction pre with
  | nil => simp [upsertLink, if_pos hL]
  | cons K rest ih =>
      rw [List.cons_append, upsertLink, if_neg (hpre K (by simp))]
      simp [ih (fun J hJ => hpre J (by simp [hJ]))]

/-! ## C1: conflict resolution of `_link_once` -/

/-- **C1 counterexample.** The claim asserts that a call sharing an
existing row's `(song_id, anime_id, use_type, sequence)` key merges into
that row (in particular `is_dub` becomes `L.is_dub OR incoming`, here
`true`).  With `sequence = NULL` the Postgres unique constraint never
conflicts, so the pre-existing row keeps `is_dub = false` and a second row
is inserted instead. -/
theorem link_once_null_sequence_counterexample :
    ¬ (∀ r ∈ (linkOnce ⟨[], [], [⟨0, 0, ("OP"), none, some ("n"), false, false⟩],
          [], [], 0⟩ 0 0 ("OP") none (some ("m")) (some true) none).links,
        r.song_id = 0 ∧ r.anime_id = 0 ∧ r.use_type = ("OP") ∧
          r.sequence = none → r.is_dub = true) := by
  decide

/-- **C1 (amended).** For every existing row `L` and every `_link_once`
call sharing `L`'s `(song_id, anime_id, use_type, sequence)` key **with a
non-null sequence**, the row afterwards has `is_dub = L.is_dub OR
incoming`, `is_rebroadcast = L.is_rebroadcast OR incoming`, and
`notes = L.notes` when non-null else the incoming notes, with `use_type`
and `sequence` unchanged; booleans can only flip `false → true`.  When no
row conflicts — in particular always when the sequence is null — a new row
with exactly the incoming values is appended. -/
theorem link_once_conflict_resolution (db : CatalogDB) (sid aid : Nat)
    (ut : String) (seq : Option Int) (notes : Option String)
    (d rb : Option Bool) :
    (∀ pre L post, db.links = pre ++ L :: post →
      (∀ K ∈ pre, ¬ linkConflict K (linkVals sid aid ut seq notes d rb)) →
      linkConflict L (linkVals sid aid ut seq notes d rb) →
      (linkOnce db sid aid ut seq notes d rb).links =
          pre ++ songAnimeMerge L (linkVals sid aid ut seq notes d rb) :: post ∧
        (songAnimeMerge L (linkVals sid aid ut seq notes d rb)).is_dub =
          (L.is_dub || d.getD false) ∧
        (songAnimeMerge L (linkVals sid aid ut seq notes d rb)).is_rebroadcast =
          (L.is_rebroadcast || rb.getD false) ∧
        (songAnimeMerge L (linkVals sid aid ut seq notes d rb)).notes =
          (if L.notes = none then notes else L.notes) ∧
        (songAnimeMerge L (linkVals sid aid ut seq notes d rb)).use_type =
          L.use_type ∧
        (songAnimeMerge L (linkVals sid aid ut seq notes d rb)).sequence =
          L.sequence ∧
        (L.is_dub = true →
          (songAnimeMerge L (linkVals sid aid ut seq notes d rb)).is_dub = true) ∧
        (L.is_rebroadcast = true →
          (songAnimeMerge L (linkVals sid aid ut seq notes d rb)).is_rebroadcast
            = true)) ∧
    ((∀ L ∈ db.links, ¬ linkConflict L (linkVals sid aid ut seq notes d rb)) →
      (linkOnce db sid aid ut seq notes d rb).links =
        db.links ++ [linkVals sid aid ut seq notes d rb]) ∧
    (seq = none →
      (linkOnce db sid aid ut seq notes d rb).links =
        db.links ++ [linkVals sid aid ut seq notes d rb]) := by
  refine ⟨?_, ?_, ?_⟩
  · intro pre L post hdecomp hpre hL
    refine ⟨?_, by simp [songAnimeMerge, linkVals], by simp [songAnimeMerge, linkVals], ?_,
      by simp [songAnimeMerge], by simp [songAnimeMerge],
      fun h => by simp [songAnimeMerge, h],
      fun h => by simp [songAnimeMerge, h]⟩
    · show upsertLink db.links _ = _
      rw [hdecomp]
      exact upsertLink_conflict pre L post _ hpre hL
    · cases h : L.notes <;> simp [songAnimeMerge, h, linkVals]
  · intro h
    exact upsertLink_no_conflict db.links _ h
  · intro h
    apply upsertLink_no_conflict
    intro L hL hc
    exact hc.2.2.2.2 (by simp [linkVals, h])

/-- Closed witness for C1 (amended): a concrete conflicting call merges in
place. -/
theorem link_once_conflict_resolution_witness :
    (linkOnce ⟨[], [], [⟨0, 0, ("OP"), some 1, some ("n"), false, false⟩],
        [], [], 0⟩ 0 0 ("OP") (some 1) (some ("m")) (some true) none).links =
      [] ++ songAnimeMerge ⟨0, 0, ("OP"), some 1, some ("n"), false, false⟩
        (linkVals 0 0 ("OP") (some 1) (some ("m")) (some true) none) :: [] :=
  ((link_once_conflict_resolution
      ⟨[], [], [⟨0, 0, ("OP"), some 1, some ("n"), false, false⟩], [], [], 0⟩
      0 0 ("OP") (some 1) (some ("m")) (some true) none).1
    [] ⟨0, 0, ("OP"), some 1, some ("n"), false, false⟩ [] rfl
    (by intro K hK; cases hK) (by decide)).1

/-! ## C2: idempotence of the upserts -/

/-- **C2 counterexample.** `_link_once` is not idempotent when `sequence`
is null: a second identical call inserts a second row. -/
theorem link_once_not_idempotent_counterexample :
    linkOnce (linkOnce emptyDB 0 0 ("OP") none none none none)
        0 0 ("OP") none none none none ≠
      linkOnce emptyDB 0 0 ("OP") none none none none := by
  decide

/-- **C2 (amended).** `_link_once` is idempotent whenever the link's
`sequence` is non-null, and a second identical call to
`_ensure_credit_by_id` or `_ensure_membership` changes nothing; with a
null `sequence` a repeated `_link_once` instead inserts a duplicate row. -/
theorem upserts_idempotent :
    (∀ (db : CatalogDB) (sid aid : Nat) (ut : String) (n : Int)
        (notes : Option String) (d rb : Option Bool),
      linkOnce (linkOnce db sid aid ut (some n) notes d rb)
          sid aid ut (some n) notes d rb =
        linkOnce db sid aid ut (some n) notes d rb) ∧
    (∀ (db : CatalogDB) (s p : Nat) (role : String),
      ensureCreditById (ensureCreditById db s p role) s p role =
        ensureCreditById db s p role) ∧
    (∀ (db : CatalogDB) (g m : Nat),
      ensureMembership (ensureMembership db g m) g m =
        ensureMembership db g m) := by
  refine ⟨?_, ?_, ?_⟩
  · intro db sid aid ut n notes d rb
    have key : ∀ links, upsertLink (upsertLink links
        (linkVals sid aid ut (some n) notes d rb))
        (linkVals sid aid ut (some n) notes d rb) =
        upsertLink links (linkVals sid aid ut (some n) notes d rb) := by
      intro links
      induction links with
      | nil =>
          have hc : linkConflict (linkVals sid aid ut (some n) notes d rb)
              (linkVals sid aid ut (some n) notes d rb) :=
            ⟨rfl, rfl, rfl, rfl, by simp [linkVals]⟩
          have hm : songAnimeMerge (linkVals sid aid ut (some n) notes d rb)
              (linkVals sid aid ut (some n) notes d rb) =
              linkVals sid aid ut (some n) notes d rb := by
            unfold songAnimeMerge linkVals
            cases notes <;> simp
          simp [upsertLink, if_pos hc, hm]
      | cons L rest ih =>
          by_cases hc : linkConflict L (linkVals sid aid ut (some n) notes d rb)
          · rw [upsertLink, if_pos hc, upsertLink,
              if_pos (linkConflict_merge _ _ hc), songAnimeMerge_merge]
          · rw [upsertLink, if_neg hc, upsertLink, if_neg hc, ih]
    simp only [linkOnce, key]
  · intro db s p role
    unfold ensureCreditById
    by_cases h : (⟨s, p, role⟩ : SongCredit) ∈ db.credits
    · simp [h]
    · simp [h]
  · intro db g m
    unfold ensureMembership
    by_cases h : (⟨g, m⟩ : Membership) ∈ db.memberships
    · simp [h]
    · simp [h]

/-! ## C3: `_get_or_create_person` never duplicates -/

/-- **C3.** For every call with `(name, anisongdb_id, kind)`:
if a `People` row with that (non-null) `anisongdb_id` exists it is
returned and no row is created; otherwise, if a row with
`primary_name = name` exists it is returned and its `anisongdb_id` is
backfilled exactly when it was null; a new row
`⟨kind, name, [], anisongdb_id⟩` is created only when neither lookup
matches. -/
theorem get_or_create_person_no_duplicate (db : CatalogDB) (name : String)
    (aid : Option Int) (kind : String) :
    (∀ i row, aid = some i → findByAid db.people i = some row →
      (getOrCreatePerson db name aid kind).1.id = row.id ∧
        (getOrCreatePerson db name aid kind).2.people.length =
          db.people.length) ∧
    ((∀ i, aid = some i → findByAid db.people i = none) →
      ∀ row, findByName db.people name = some row →
      (getOrCreatePerson db name aid kind).1.id = row.id ∧
        (getOrCreatePerson db name aid kind).2.people.length =
          db.people.length ∧
        (getOrCreatePerson db name aid kind).1.anisongdb_id =
          (if row.anisongdb_id = none then aid else row.anisongdb_id) ∧
        (row.anisongdb_id ≠ none →
          (getOrCreatePerson db name aid kind).1.anisongdb_id =
            row.anisongdb_id)) ∧
    ((∀ i, aid = some i → findByAid db.people i = none) →
      findByName db.people name = none →
      (getOrCreatePerson db name aid kind).1 =
          ⟨db.nextId, kind, name, [], aid⟩ ∧
        (getOrCreatePerson db name aid kind).2.people =
          db.people ++ [⟨db.nextId, kind, name, [], aid⟩]) := by
  refine ⟨?_, ?_, ?_⟩
  · intro i row ha hfind
    subst ha
    simp only [getOrCreatePerson, hfind]
    constructor
    · split <;> split <;> rfl
    · split <;> split <;> simp [updatePerson]
  · intro hnone row hname
    have hred : getOrCreatePerson db name aid kind =
        personByNameOrCreate db name aid kind := by
      cases haid : aid with
      | none => rfl
      | some i => simp only [getOrCreatePerson, hnone i haid]
    rw [hred]
    simp only [personByNameOrCreate, hname]
    refine ⟨?_, ?_, ?_, ?_⟩
    · split <;> split <;> rfl
    · split <;> split <;> simp [updatePerson]
    · cases hr : row.anisongdb_id <;> cases haid : aid <;>
        split <;> split <;> simp_all
    · intro hne
      cases hr : row.anisongdb_id with
      | none => exact absurd hr hne
      | some v => split <;> split <;> simp_all
  · intro hnone hname
    have hred : getOrCreatePerson db name aid kind =
        personByNameOrCreate db name aid kind := by
      cases haid : aid with
      | none => rfl
      | some i => simp only [getOrCreatePerson, hnone i haid]
    rw [hred]
    simp only [personByNameOrCreate, hname]
    exact ⟨by simp, by simp⟩

/-- Closed witness for C3: creating in an empty database yields exactly the
fresh row. -/
theorem get_or_create_person_no_duplicate_witness :
    (getOrCreatePerson emptyDB ("A") (some 5) ("person")).2.people =
      emptyDB.people ++ [⟨emptyDB.nextId, ("person"), ("A"), [], some 5⟩] :=
  ((get_or_create_person_no_duplicate emptyDB ("A") (some 5)
      ("person")).2.2 (fun i h => by cases h; rfl) rfl).2

/-! ## C10: `_get_or_create_song` keyed on name, audio write-once -/

/-- **C10.** `_get_or_create_song` returns the existing `Song` row with
the given name when one exists (creating a new row only otherwise), and
sets `audio` only when the row is newly created or its stored `audio` is
empty; a non-empty stored `audio` is never overwritten. -/
theorem get_or_create_song_name_key (db : CatalogDB) (name audio : String) :
    (∀ row, findSongByName db.songs name = some row →
      (getOrCreateSong db name audio).1.id = row.id ∧
        (getOrCreateSong db name audio).1.name = row.name ∧
        (getOrCreateSong db name audio).2.songs.length = db.songs.length ∧
        (getOrCreateSong db name audio).1.audio =
          (if audio ≠ ("") ∧ row.audio = ("") then audio else row.audio) ∧
        (row.audio ≠ ("") →
          (getOrCreateSong db name audio).1.audio = row.audio)) ∧
    (findSongByName db.songs name = none →
      (getOrCreateSong db name audio).1 = ⟨db.nextId, name, audio⟩ ∧
        (getOrCreateSong db name audio).2.songs =
          db.songs ++ [⟨db.nextId, name, audio⟩]) := by
  constructor
  · intro row hrow
    simp only [getOrCreateSong, hrow]
    refine ⟨by split <;> rfl, by split <;> rfl,
      by split <;> simp [updateSong], by split <;> simp_all, ?_⟩
    intro hne
    split <;> rename_i h
    · exact (hne h.2).elim
    · rfl
  · intro hnone
    simp only [getOrCreateSong, hnone]
    exact ⟨by simp, by simp⟩

/-- Closed witness for C10: inserting into an empty database. -/
theorem get_or_create_song_name_key_witness :
    (getOrCreateSong emptyDB ("S") ("a.mp3")).2.songs =
      emptyDB.songs ++ [⟨emptyDB.nextId, ("S"), ("a.mp3")⟩] :=
  ((get_or_create_song_name_key emptyDB ("S") ("a.mp3")).2 rfl).2

/-! ## AniSongDB payload model and `_row_matches_anime` -/

/-- Python `str.lower()` (ASCII range). -/
def pyLower (s : String) : String := String.mk (s.data.map Char.toLower)

/-- Truthiness of a nullable integer (`if mal_db and ...`): Python treats
both `None` and `0` as falsy. -/
def truthyOptInt : Option Int → Bool
  | none => false
  | some n => decide (n ≠ 0)

/-- A member / group sub-object inside an AniSongDB `Artist` object; of
these the importer reads only `_to_int(x.get("id"))` and `names`. -/
structure SubArtist where
  id : Option Int
  names : List String
deriving DecidableEq, Repr

/-- An AniSongDB `Artist` object as read by `_upsert_artist_entity`:
`_to_int(a.get("id"))`, the `names` list, and the `members` / `groups`
sub-object lists (`a.get("members") or []`). -/
structure ArtistObj where
  id : Option Int
  names : List String
  members : List SubArtist
  groups : List SubArtist
deriving DecidableEq, Repr

/-- An AniSongDB `SongEntry` row, restricted to the keys the importer
reads.  Nullable JSON values are `Option`s; `linked_anilist` /
`linked_myanimelist` model `(row.get("linked_ids") or {}).get(...)`;
`animeAltName` models the `isinstance(n, str)`-filtered alt-name list. -/
structure SongEntry where
  songName : Option String
  name : Option String
  songType : Option String
  annSongId : Option Int
  isDub : Option Bool
  isRebroadcast : Option Bool
  audio : Option String
  hq : Option String
  mq : Option String
  artists : List ArtistObj
  composers : List ArtistObj
  arrangers : List ArtistObj
  songArtist : Option String
  songComposer : Option String
  songArranger : Option String
  linked_anilist : Option Int
  linked_myanimelist : Option Int
  animeENName : Option String
  animeJPName : Option String
  animeAltName : List String
deriving DecidableEq, Repr

/-- Row of the `anime` table, restricted to the columns
`_row_matches_anime` and the link upsert read. -/
structure Anime where
  id : Nat
  title_en : Option String
  title_romaji : Option String
  title_jp : Option String
  linked_anilist : Option Int
  linked_myanimelist : Option Int
deriving DecidableEq, Repr

/-- `_names_from_artist_obj`: keep the (string) names whose `strip()` is
truthy. -/
def namesFromArtist (ns : List String) : List String :=
  ns.filter (fun n => pyStrip n ≠ (""))

/-- `_primary_name_from_artist_obj`: first kept name, if any. -/
def primaryNameFrom (ns : List String) : Option String :=
  (namesFromArtist ns).head?

/-- `_merge_alt_names` (lines 222–228): the loop
`for n in incoming: n = (n or "").strip(); if n and n not in out:
out.append(n)` with accumulator `out` initialised to `existing`. -/
def mergeAltNames (existing : List String) : List String → List String
  | [] => existing
  | n :: rest =>
      let n1 := pyStrip n
      if n1 ≠ ("") ∧ ¬ n1 ∈ existing then
        mergeAltNames (existing ++ [n1]) rest
      else mergeAltNames existing rest

/-- Member-name resolution in `_upsert_artist_entity`'s member loop:
`_primary_name_from_artist_obj(mem) or (f"Artist {mem_id}" if mem_id is
not None else None)`. -/
def memberName (mem : SubArtist) : Option String :=
  match primaryNameFrom mem.names with
  | some n => some n
  | none =>
      match mem.id with
      | some i => some (("Artist ") ++ toString i)
      | none => none

/-- Group-name resolution in `_upsert_artist_entity`'s group loop. -/
def groupName (grp : SubArtist) : Option String :=
  match primaryNameFrom grp.names with
  | some n => some n
  | none =>
      match grp.id with
      | some i => some (("Group ") ++ toString i)
      | none => none

/-- One iteration of `_upsert_artist_entity`'s member loop (for a member
whose name resolved to `nm`): upsert the member as a person, merge its
remaining alt-names, and ensure a `(group → member)` membership edge. -/
def memberStep (gid : Nat) (db : CatalogDB) (mem : SubArtist) (nm : String) :
    CatalogDB :=
  let pdb := getOrCreatePerson db nm mem.id ("person")
  let member1 := { pdb.1 with
    alt_names := mergeAltNames pdb.1.alt_names
      ((namesFromArtist mem.names).drop 1) }
  ensureMembership (updatePerson pdb.2 member1) gid member1.id

/-- The member loop of `_upsert_artist_entity` (lines 257–266); a member
with no resolvable name is skipped (`continue`). -/
def processMembers (gid : Nat) (db : CatalogDB) : List SubArtist → CatalogDB
  | [] => db
  | mem :: rest =>
      match memberName mem with
      | none => processMembers gid db rest
      | some nm => processMembers gid (memberStep gid db mem nm) rest

/-- One iteration of `_upsert_artist_entity`'s group loop: upsert the
listed group, merge its remaining alt-names, and ensure a
`(group → this artist)` membership edge. -/
def groupStep (pid : Nat) (db : CatalogDB) (grp : SubArtist) (gn : String) :
    CatalogDB :=
  let gdb := getOrCreatePerson db gn grp.id ("group")
  let group1 := { gdb.1 with
    alt_names := mergeAltNames gdb.1.alt_names
      ((namesFromArtist grp.names).drop 1) }
  ensureMembership (updatePerson gdb.2 group1) group1.id pid

/-- The group loop of `_upsert_artist_entity` (lines 269–276). -/
def processGroups (pid : Nat) (db : CatalogDB) : List SubArtist → CatalogDB
  | [] => db
  | grp :: rest =>
      match groupName grp with
      | none => processGroups pid db rest
      | some gn => processGroups pid (groupStep pid db grp gn) rest

/-- The `primary` name chosen by `_upsert_artist_entity` (lines 241–245):
first kept name, else the `Artist {id}` / `Unknown Artist` placeholder. -/
def artistPrimary (a : ArtistObj) : String :=
  match (namesFromArtist a.names).head? with
  | some n => n
  | none =>
      match a.id with
      | some i => ("Artist ") ++ toString i
      | none => ("Unknown Artist")

/-- `is_group = bool(a.get("members"))`; `kind = "group" if is_group else
"person"` (lines 247–248). -/
def artistKind (a : ArtistObj) : String :=
  if a.members ≠ [] then ("group") else ("person")

/-- The main `People` row of `_upsert_artist_entity` after the alt-name
merge `person.alt_names = _merge_alt_names(person.alt_names, alts)`
(lines 251–254), where `alts` drops names equal to the row's primary
name. -/
def artistRow1 (db : CatalogDB) (a : ArtistObj) : Person :=
  let pdb := getOrCreatePerson db (artistPrimary a) a.id (artistKind a)
  { pdb.1 with
    alt_names := mergeAltNames pdb.1.alt_names
      ((namesFromArtist a.names).filter
        (fun n => n ≠ pdb.1.primary_name)) }

/-- State after the main-entity upsert and alt-name write-back. -/
def artistDB2 (db : CatalogDB) (a : ArtistObj) : CatalogDB :=
  updatePerson (getOrCreatePerson db (artistPrimary a) a.id (artistKind a)).2
    (artistRow1 db a)

/-- State after the member loop (run only when `is_group`). -/
def artistDB3 (db : CatalogDB) (a : ArtistObj) : CatalogDB :=
  if a.members ≠ [] then
    processMembers (artistRow1 db a).id (artistDB2 db a) a.members
  else artistDB2 db a

/-- `_upsert_artist_entity` (lines 231–278): decide `kind` by presence of
`members`, upsert the main `People` row, merge alt-names, then run the
member and group loops.  Python returns the live ORM row; we return its
primary key together with the final state. -/
def upsertArtistEntity (db : CatalogDB) (a : ArtistObj) : Nat × CatalogDB :=
  ((artistRow1 db a).id,
    processGroups (artistRow1 db a).id (artistDB3 db a) a.groups)

/-- `_row_matches_anime` (anisong_importer.py lines 325–350): accept on a
matching truthy linked id (MAL, then AniList), else fall back to a
lower-cased title-set intersection test. -/
def rowMatchesAnime (row : SongEntry) (anime : Anime) : Bool :=
  if truthyOptInt anime.linked_myanimelist ∧ truthyOptInt row.linked_myanimelist ∧
      anime.linked_myanimelist = row.linked_myanimelist then true
  else if truthyOptInt anime.linked_anilist ∧ truthyOptInt row.linked_anilist ∧
      anime.linked_anilist = row.linked_anilist then true
  else
    let titles : List String :=
      [pyLower (anime.title_en.getD ("")), pyLower (anime.title_romaji.getD ("")),
        pyLower (anime.title_jp.getD (""))]
    let names : List String :=
      [pyLower (row.animeENName.getD ("")), pyLower (row.animeJPName.getD (""))] ++
        row.animeAltName.map pyLower
    titles.any (fun t => t ∈ names)

theorem pyLower_empty : pyLower ("") = ("") := rfl

/-- **C9.** If the anime has at least one of `title_en`, `title_romaji`,
`title_jp` null or empty, and the search row has `animeENName` or
`animeJPName` missing or empty, then `_row_matches_anime` returns `True`:
both sides contribute the empty string to the title sets, so the
intersection is non-empty and the guard accepts the row. -/
theorem row_matches_anime_empty_title_hole (row : SongEntry) (anime : Anime)
    (h1 : anime.title_en = none ∨ anime.title_en = some ("") ∨
      anime.title_romaji = none ∨ anime.title_romaji = some ("") ∨
      anime.title_jp = none ∨ anime.title_jp = some (""))
    (h2 : row.animeENName = none ∨ row.animeENName = some ("") ∨
      row.animeJPName = none ∨ row.animeJPName = some ("")) :
    rowMatchesAnime row anime = true := by
  unfold rowMatchesAnime
  split
  · rfl
  split
  · rfl
  simp only [List.any_eq_true]
  refine ⟨(""), ?_, ?_⟩
  · rcases h1 with h | h | h | h | h | h <;> simp [h, pyLower_empty]
  · rcases h2 with h | h | h | h <;> simp [h, pyLower_empty]

/-- Closed witness for C9: an all-empty anime row matches an unrelated
search row with no English name. -/
theorem row_matches_anime_empty_title_hole_witness :
    rowMatchesAnime
      ⟨none, none, none, none, none, none, none, none, none, [], [], [],
        none, none, none, none, none, none, some ("Zoku Owarimonogatari"), []⟩
      ⟨0, none, some ("Frieren"), some ("Sousou no Frieren"), none, none⟩ =
      true :=
  row_matches_anime_empty_title_hole _ _ (Or.inl rfl) (Or.inl rfl)

/-! ## Infrastructure for reasoning about the people table -/

theorem findByAid_mem {ps : List Person} {i : Int} {p : Person}
    (h : findByAid ps i = some p) : p ∈ ps := by
  induction ps with
  | nil => cases h
  | cons q rest ih =>
      rw [findByAid] at h
      split at h
      · cases h; exact List.mem_cons_self _ _
      · exact List.mem_cons_of_mem _ (ih h)

theorem findByName_mem {ps : List Person} {nm : String} {p : Person}
    (h : findByName ps nm = some p) : p ∈ ps := by
  induction ps with
  | nil => cases h
  | cons q rest ih =>
      rw [findByName] at h
      split at h
      · cases h; exact List.mem_cons_self _ _
      · exact List.mem_cons_of_mem _ (ih h)

theorem findById_of_forall_lt {ps : List Person} {n : Nat}
    (h : ∀ q ∈ ps, q.id < n) : findById ps n = none := by
  induction ps with
  | nil => rfl
  | cons q rest ih =>
      rw [findById]
      rw [if_neg (Nat.ne_of_lt (h q (List.mem_cons_self _ _)))]
      exact ih (fun r hr => h r (List.mem_cons_of_mem _ hr))

theorem findById_append_none {ps : List Person} {pid : Nat} (p : Person)
    (h : findById ps pid = none) :
    findById (ps ++ [p]) pid = if p.id = pid then some p else none := by
  induction ps with
  | nil => rfl
  | cons q rest ih =>
      rw [findById] at h
      split at h
      · cases h
      · rename_i hq
        rw [List.cons_append, findById, if_neg hq]
        exact ih h

theorem findById_append_some {ps : List Person} {pid : Nat} {q : Person}
    (p : Person) (h : findById ps pid = some q) :
    findById (ps ++ [p]) pid = some q := by
  induction ps with
  | nil => cases h
  | cons r rest ih =>
      rw [findById] at h
      rw [List.cons_append, findById]
      split at h
      · rename_i hr; cases h; rw [if_pos hr]
      · rename_i hr; rw [if_neg hr]; exact ih h

theorem mem_nodup_findById {ps : List Person} {p : Person}
    (hnd : (ps.map Person.id).Nodup) (hmem : p ∈ ps) :
    findById ps p.id = some p := by
  induction ps with
  | nil => cases hmem
  | cons q rest ih =>
      rw [List.map_cons, List.nodup_cons] at hnd
      rcases List.mem_cons.mp hmem with h | h
      · subst h; rw [findById, if_pos rfl]
      · have hne : q.id ≠ p.id := by
          intro he
          exact hnd.1 (he ▸ List.mem_map_of_mem Person.id h)
        rw [findById, if_neg hne]
        exact ih hnd.2 h

theorem findById_map_update_ne {ps : List Person} (p : Person) {pid : Nat}
    (h : pid ≠ p.id) :
    findById (ps.map fun q => if q.id = p.id then p else q) pid =
      findById ps pid := by
  induction ps with
  | nil => rfl
  | cons q rest ih =>
      rw [List.map_cons, findById, findById]
      by_cases hq : q.id = p.id
      · rw [if_pos hq, if_neg (fun he : p.id = pid => h he.symm),
          if_neg (fun he : q.id = pid => h (hq ▸ he).symm)]
        exact ih
      · rw [if_neg hq]
        split <;> [rfl; exact ih]

theorem findById_map_update_eq {ps : List Person} (p : Person) {q : Person}
    (h : findById ps p.id = some q) :
    findById (ps.map fun r => if r.id = p.id then p else r) p.id = some p := by
  induction ps with
  | nil => cases h
  | cons r rest ih =>
      rw [findById] at h
      rw [List.map_cons, findById]
      split at h
      · rename_i hr
        rw [if_pos hr, if_pos rfl]
      · rename_i hr
        rw [if_neg hr, if_neg hr]
        exact ih h

/-- Well-formedness of the people table: primary keys are distinct and
below the fresh-id counter (true of every state `uuid4`-keyed SQLAlchemy
can produce, modulo the id model). -/
def wfPeople (db : CatalogDB) : Prop :=
  (db.people.map Person.id).Nodup ∧ ∀ p ∈ db.people, p.id < db.nextId

theorem wfPeople_updatePerson {db : CatalogDB} (p : Person)
    (h : wfPeople db) : wfPeople (updatePerson db p) := by
  constructor
  · have : ((updatePerson db p).people.map Person.id) =
        db.people.map Person.id := by
      simp only [updatePerson, List.map_map]
      apply List.map_congr_left
      intro q _
      by_cases hq : q.id = p.id <;> simp [hq]
    rw [this]; exact h.1
  · intro q hq
    simp only [updatePerson, List.mem_map] at hq
    obtain ⟨r, hr, hrq⟩ := hq
    by_cases hid : r.id = p.id
    · rw [if_pos hid] at hrq
      subst hrq
      show p.id < _
      exact hid ▸ h.2 r hr
    · rw [if_neg hid] at hrq
      subst hrq
      exact h.2 r hr

theorem wfPeople_append_fresh {db : CatalogDB} (k nm : String)
    (aid : Option Int) (h : wfPeople db) :
    wfPeople { db with
      people := db.people ++ [⟨db.nextId, k, nm, [], aid⟩],
      nextId := db.nextId + 1 } := by
  constructor
  · simp only [List.map_append, List.map_cons, List.map_nil]
    rw [List.nodup_append]
    refine ⟨h.1, List.nodup_singleton _, ?_⟩
    intro x hx
    simp only [List.mem_map] at hx
    obtain ⟨q, hq, hqx⟩ := hx
    simp only [List.mem_singleton]
    intro he
    subst he
    exact absurd (hqx ▸ h.2 q hq) (lt_irrefl _)
  · intro q hq
    rcases List.mem_append.mp hq with hq | hq
    · exact Nat.lt_succ_of_lt (h.2 q hq)
    · simp only [List.mem_singleton] at hq
      subst hq
      exact Nat.lt_succ_self _

theorem wfPeople_getOrCreatePerson {db : CatalogDB} (nm : String)
    (aid : Option Int) (k : String) (h : wfPeople db) :
    wfPeople (getOrCreatePerson db nm aid k).2 := by
  unfold getOrCreatePerson personByNameOrCreate
  split
  · split
    · exact wfPeople_updatePerson _ h
    · split
      · exact wfPeople_updatePerson _ h
      · exact wfPeople_append_fresh _ _ _ h
  · split
    · exact wfPeople_updatePerson _ h
    · exact wfPeople_append_fresh _ _ _ h

/-- Row evolution during one import: the primary key and primary name are
stable, alt-names only grow, and `kind` can only move to `'group'`. -/
def rowLE (p q : Person) : Prop :=
  p.id = q.id ∧ p.primary_name = q.primary_name ∧
    (∀ nm, nm ∈ p.alt_names → nm ∈ q.alt_names) ∧
    (p.kind = ("group") → q.kind = ("group"))

theorem rowLE_refl (p : Person) : rowLE p p :=
  ⟨rfl, rfl, fun _ h => h, fun h => h⟩

theorem rowLE_trans {p q r : Person} (h1 : rowLE p q) (h2 : rowLE q r) :
    rowLE p r :=
  ⟨h1.1.trans h2.1, h1.2.1.trans h2.2.1,
    fun nm h => h2.2.2.1 nm (h1.2.2.1 nm h),
    fun h => h2.2.2.2 (h1.2.2.2 h)⟩

/-- State evolution during one import: every visible person row evolves by
`rowLE` and membership edges persist. -/
def dbLE (db db' : CatalogDB) : Prop :=
  (∀ pid p, findById db.people pid = some p →
    ∃ q, findById db'.people pid = some q ∧ rowLE p q) ∧
  (∀ e : Membership, e ∈ db.memberships → e ∈ db'.memberships)

theorem dbLE_refl (db : CatalogDB) : dbLE db db :=
  ⟨fun _ p h => ⟨p, h, rowLE_refl p⟩, fun _ h => h⟩

theorem dbLE_trans {a b c : CatalogDB} (h1 : dbLE a b) (h2 : dbLE b c) :
    dbLE a c := by
  constructor
  · intro pid p hp
    obtain ⟨q, hq, hpq⟩ := h1.1 pid p hp
    obtain ⟨r, hr, hqr⟩ := h2.1 pid q hq
    exact ⟨r, hr, rowLE_trans hpq hqr⟩
  · exact fun e he => h2.2 e (h1.2 e he)

theorem dbLE_updatePerson_of {db : CatalogDB} {p p' : Person}
    (hp : findById db.people p'.id = some p) (hle : rowLE p p') :
    dbLE db (updatePerson db p') := by
  constructor
  · intro pid q hq
    by_cases hid : pid = p'.id
    · subst hid
      rw [hp] at hq
      cases hq
      exact ⟨p', findById_map_update_eq p' hp, hle⟩
    · exact ⟨q, (findById_map_update_ne p' hid).symm ▸ hq, rowLE_refl q⟩
  · intro e he; exact he

theorem dbLE_append_fresh (db : CatalogDB) (k nm : String)
    (aid : Option Int) :
    dbLE db { db with
      people := db.people ++ [⟨db.nextId, k, nm, [], aid⟩],
      nextId := db.nextId + 1 } := by
  constructor
  · intro pid q hq
    exact ⟨q, findById_append_some _ hq, rowLE_refl q⟩
  · intro e he; exact he

theorem mergeAltNames_mem_left (existing incoming : List String) :
    ∀ nm ∈ existing, nm ∈ mergeAltNames existing incoming := by
  induction incoming generalizing existing with
  | nil => intro nm h; exact h
  | cons n rest ih =>
      intro nm h
      rw [mergeAltNames]
      split
      · exact ih _ nm (List.mem_append_left _ h)
      · exact ih _ nm h

theorem rowLE_kind_ite (row : Person) (k : String) :
    rowLE row (if k = ("group") ∧ row.kind ≠ ("group") then
      { row with kind := ("group") } else row) := by
  split
  · exact ⟨rfl, rfl, fun _ h => h, fun _ => rfl⟩
  · exact rowLE_refl row

theorem rowLE_alt_ite (row : Person) (nm : String) {c : Prop} [Decidable c] :
    rowLE row (if c then { row with alt_names := row.alt_names ++ [nm] }
      else row) := by
  split
  · exact ⟨rfl, rfl, fun _ h => List.mem_append_left _ h, fun h => h⟩
  · exact rowLE_refl row

theorem rowLE_aid_ite (row : Person) (aid : Option Int) {c : Prop}
    [Decidable c] :
    rowLE row (if c then { row with anisongdb_id := aid } else row) := by
  split
  · exact ⟨rfl, rfl, fun _ h => h, fun h => h⟩
  · exact rowLE_refl row

theorem rowLE_alt_merge (row : Person) (xs : List String) :
    rowLE row { row with alt_names := mergeAltNames row.alt_names xs } :=
  ⟨rfl, rfl, fun nm h => mergeAltNames_mem_left _ _ nm h, fun h => h⟩

/-- The row `_get_or_create_person` hands back always evolves from
whatever row (if any) previously occupied its primary key, and it is
visible in the resulting state at its key. -/
theorem getOrCreatePerson_spec {db : CatalogDB} (nm : String)
    (aid : Option Int) (k : String) (h : wfPeople db) :
    dbLE db (getOrCreatePerson db nm aid k).2 ∧
      findById (getOrCreatePerson db nm aid k).2.people
          (getOrCreatePerson db nm aid k).1.id =
        some (getOrCreatePerson db nm aid k).1 ∧
      (getOrCreatePerson db nm aid k).2.memberships = db.memberships ∧
      (getOrCreatePerson db nm aid k).2.songs = db.songs ∧
      (getOrCreatePerson db nm aid k).2.links = db.links ∧
      (getOrCreatePerson db nm aid k).2.credits = db.credits := by
  have hbyid : ∀ (row : Person), row ∈ db.people →
      ∀ (row2 : Person), rowLE row row2 →
      dbLE db (updatePerson db row2) ∧
        findById (updatePerson db row2).people row2.id = some row2 ∧
        (updatePerson db row2).memberships = db.memberships ∧
        (updatePerson db row2).songs = db.songs ∧
        (updatePerson db row2).links = db.links ∧
        (updatePerson db row2).credits = db.credits := by
    intro row hrow row2 hle
    have hfind : findById db.people row2.id = some row := by
      rw [← hle.1]; exact mem_nodup_findById h.1 hrow
    exact ⟨dbLE_updatePerson_of hfind hle,
      findById_map_update_eq row2 hfind, rfl, rfl, rfl, rfl⟩
  have hcreate :
      dbLE db { db with
          people := db.people ++ [⟨db.nextId, k, nm, [], aid⟩],
          nextId := db.nextId + 1 } ∧
        findById (db.people ++ [(⟨db.nextId, k, nm, [], aid⟩ : Person)])
            db.nextId = some ⟨db.nextId, k, nm, [], aid⟩ := by
    refine ⟨dbLE_append_fresh db _ _ _, ?_⟩
    rw [findById_append_none _ (findById_of_forall_lt h.2), if_pos rfl]
  unfold getOrCreatePerson personByNameOrCreate
  split
  · rename_i i
    split
    · rename_i row hrow
      exact hbyid row (findByAid_mem hrow) _
        (rowLE_trans (rowLE_kind_ite row k) (rowLE_alt_ite _ nm))
    · split
      · rename_i row hrow
        exact hbyid row (findByName_mem hrow) _
          (rowLE_trans (rowLE_aid_ite row (some i)) (rowLE_kind_ite _ k))
      · exact ⟨hcreate.1, hcreate.2, rfl, rfl, rfl, rfl⟩
  · split
    · rename_i row hrow
      exact hbyid row (findByName_mem hrow) _
        (rowLE_trans (rowLE_aid_ite row none) (rowLE_kind_ite _ k))
    · exact ⟨hcreate.1, hcreate.2, rfl, rfl, rfl, rfl⟩

theorem findByName_eq {ps : List Person} {nm : String} {row : Person}
    (h : findByName ps nm = some row) : row.primary_name = nm := by
  induction ps with
  | nil => cases h
  | cons q rest ih =>
      rw [findByName] at h
      split at h
      · rename_i hq; cases h; exact hq
      · exact ih h

/-- The row handed back by `_get_or_create_person` with `kind='group'`
always has kind `'group'` afterwards. -/
theorem getOrCreatePerson_kind_group (db : CatalogDB) (nm : String)
    (aid : Option Int) :
    ((getOrCreatePerson db nm aid ("group")).1).kind = ("group") := by
  unfold getOrCreatePerson personByNameOrCreate
  split
  · split
    · simp only []
      split <;> split <;> simp_all
    · split
      · simp only []
        split <;> split <;> simp_all
      · rfl
  · split
    · simp only []
      split <;> split <;> simp_all
    · rfl

/-- The row handed back by `_get_or_create_person` carries the requested
name: as its `primary_name` or among its `alt_names` (for a truthy
name). -/
theorem getOrCreatePerson_primary_or_alt (db : CatalogDB) (nm : String)
    (aid : Option Int) (k : String) (hnm : nm ≠ ("")) :
    (getOrCreatePerson db nm aid k).1.primary_name = nm ∨
      nm ∈ (getOrCreatePerson db nm aid k).1.alt_names := by
  unfold getOrCreatePerson personByNameOrCreate
  split
  · split
    · rename_i row hrow
      simp only []
      split <;> split <;> rename_i hc
      · exact Or.inr (List.mem_append_right _ (List.mem_singleton_self nm))
      · push_neg at hc
        rw [or_iff_not_imp_left]
        intro hp
        exact hc hnm hp
      · exact Or.inr (List.mem_append_right _ (List.mem_singleton_self nm))
      · push_neg at hc
        rw [or_iff_not_imp_left]
        intro hp
        exact hc hnm hp
    · split
      · rename_i row hrow
        left
        have hpn := findByName_eq hrow
        simp only []
        split <;> split <;> simpa using hpn
      · exact Or.inl rfl
  · split
    · rename_i row hrow
      left
      have hpn := findByName_eq hrow
      simp only []
      split <;> split <;> simpa using hpn
    · exact Or.inl rfl

theorem ensureMembership_spec (db : CatalogDB) (g m : Nat) :
    (ensureMembership db g m).people = db.people ∧
      (ensureMembership db g m).nextId = db.nextId ∧
      (⟨g, m⟩ : Membership) ∈ (ensureMembership db g m).memberships ∧
      ∀ e ∈ db.memberships, e ∈ (ensureMembership db g m).memberships := by
  by_cases h : (⟨g, m⟩ : Membership) ∈ db.memberships
  · simp only [ensureMembership, if_pos h]
    exact ⟨by simp, by simp, h, fun e he => he⟩
  · simp only [ensureMembership, if_neg h]
    exact ⟨by simp, by simp,
      List.mem_append_right _ (List.mem_singleton_self _),
      fun e he => List.mem_append_left _ he⟩

theorem wfPeople_ensureMembership {db : CatalogDB} (g m : Nat)
    (h : wfPeople db) : wfPeople (ensureMembership db g m) := by
  have hs := ensureMembership_spec db g m
  exact ⟨by rw [hs.1]; exact h.1, by rw [hs.1, hs.2.1]; exact h.2⟩

theorem dbLE_ensureMembership (db : CatalogDB) (g m : Nat) :
    dbLE db (ensureMembership db g m) := by
  have hs := ensureMembership_spec db g m
  constructor
  · intro pid p hp
    exact ⟨p, by rw [hs.1]; exact hp, rowLE_refl p⟩
  · exact hs.2.2.2

/-- The requested name is visible (as primary or alt name) on the person
with the given id in the given state. -/
def nameOn (db : CatalogDB) (pid : Nat) (nm : String) : Prop :=
  ∃ p, findById db.people pid = some p ∧
    (p.primary_name = nm ∨ nm ∈ p.alt_names)

theorem nameOn_mono {db db' : CatalogDB} (h : dbLE db db') {pid : Nat}
    {nm : String} : nameOn db pid nm → nameOn db' pid nm := by
  rintro ⟨p, hp, hnm⟩
  obtain ⟨q, hq, hle⟩ := h.1 pid p hp
  refine ⟨q, hq, ?_⟩
  rcases hnm with he | he
  · exact Or.inl (hle.2.1.symm.trans he)
  · exact Or.inr (hle.2.2.1 nm he)

theorem primaryNameFrom_ne_empty {ns : List String} {n : String}
    (h : primaryNameFrom ns = some n) : n ≠ ("") := by
  have hmem : n ∈ namesFromArtist ns := by
    unfold primaryNameFrom at h
    cases hh : namesFromArtist ns with
    | nil => rw [hh] at h; cases h
    | cons a rest =>
        rw [hh] at h
        cases h
        exact List.mem_cons_self _ _
  have hp := (List.mem_filter.mp hmem).2
  intro he
  subst he
  have hne : pyStrip ("") ≠ ("") := by simpa using hp
  exact hne rfl

theorem artist_prefix_ne_empty (s : String) : ("Artist ") ++ s ≠ ("") := by
  intro he
  have : (("Artist ") ++ s).data = ("" : String).data := by rw [he]
  rw [String.data_append] at this
  exact List.cons_ne_nil _ _ (List.append_eq_nil.mp this).1

theorem group_prefix_ne_empty (s : String) : ("Group ") ++ s ≠ ("") := by
  intro he
  have : (("Group ") ++ s).data = ("" : String).data := by rw [he]
  rw [String.data_append] at this
  exact List.cons_ne_nil _ _ (List.append_eq_nil.mp this).1

theorem memberName_ne_empty {mem : SubArtist} {nm : String}
    (h : memberName mem = some nm) : nm ≠ ("") := by
  unfold memberName at h
  split at h
  · rename_i n hn; cases h; exact primaryNameFrom_ne_empty hn
  · split at h
    · cases h; exact artist_prefix_ne_empty _
    · cases h

theorem groupName_ne_empty {grp : SubArtist} {gn : String}
    (h : groupName grp = some gn) : gn ≠ ("") := by
  unfold groupName at h
  split at h
  · rename_i n hn; cases h; exact primaryNameFrom_ne_empty hn
  · split at h
    · cases h; exact group_prefix_ne_empty _
    · cases h

/-- One member-loop iteration: well-formedness and monotonicity are
preserved, and afterwards a `(gid → member)` edge exists whose target row
carries the member's resolved name. -/
theorem memberStep_spec (gid : Nat) (db : CatalogDB) (mem : SubArtist)
    (nm : String) (h : wfPeople db) (hnm : nm ≠ ("")) :
    wfPeople (memberStep gid db mem nm) ∧
      dbLE db (memberStep gid db mem nm) ∧
      ∃ mid, (⟨gid, mid⟩ : Membership) ∈ (memberStep gid db mem nm).memberships ∧
        nameOn (memberStep gid db mem nm) mid nm := by
  obtain ⟨hle1, hfound, _, _, _, _⟩ :=
    getOrCreatePerson_spec nm mem.id ("person") h
  have h1 : wfPeople (getOrCreatePerson db nm mem.id ("person")).2 :=
    wfPeople_getOrCreatePerson nm mem.id ("person") h
  set pdb := getOrCreatePerson db nm mem.id ("person") with hpdb
  set member1 : Person := { pdb.1 with
    alt_names := mergeAltNames pdb.1.alt_names
      ((namesFromArtist mem.names).drop 1) } with hm1
  have hfind1 : findById pdb.2.people member1.id = some pdb.1 := hfound
  have hle2 : dbLE pdb.2 (updatePerson pdb.2 member1) :=
    dbLE_updatePerson_of hfind1 (rowLE_alt_merge pdb.1 _)
  have h2 : wfPeople (updatePerson pdb.2 member1) :=
    wfPeople_updatePerson member1 h1
  have hfind2 : findById (updatePerson pdb.2 member1).people member1.id =
      some member1 := findById_map_update_eq member1 hfind1
  have hsm := ensureMembership_spec (updatePerson pdb.2 member1) gid member1.id
  have h3 : wfPeople (memberStep gid db mem nm) :=
    wfPeople_ensureMembership _ _ h2
  have hle3 : dbLE (updatePerson pdb.2 member1) (memberStep gid db mem nm) :=
    dbLE_ensureMembership _ _ _
  refine ⟨h3, dbLE_trans hle1 (dbLE_trans hle2 hle3), member1.id, hsm.2.2.1, ?_⟩
  refine ⟨member1, ?_, ?_⟩
  · show findById (ensureMembership (updatePerson pdb.2 member1) gid
      member1.id).people member1.id = some member1
    rw [hsm.1]
    exact hfind2
  · have := getOrCreatePerson_primary_or_alt db nm mem.id ("person") hnm
    rcases this with he | he
    · exact Or.inl he
    · exact Or.inr (mergeAltNames_mem_left _ _ nm he)

/-- One group-loop iteration, symmetric to `memberStep_spec`, with the
edge directed `(group → pid)`. -/
theorem groupStep_spec (pid : Nat) (db : CatalogDB) (grp : SubArtist)
    (gn : String) (h : wfPeople db) (hgn : gn ≠ ("")) :
    wfPeople (groupStep pid db grp gn) ∧
      dbLE db (groupStep pid db grp gn) ∧
      ∃ gid2, (⟨gid2, pid⟩ : Membership) ∈ (groupStep pid db grp gn).memberships ∧
        nameOn (groupStep pid db grp gn) gid2 gn := by
  obtain ⟨hle1, hfound, _, _, _, _⟩ :=
    getOrCreatePerson_spec gn grp.id ("group") h
  have h1 : wfPeople (getOrCreatePerson db gn grp.id ("group")).2 :=
    wfPeople_getOrCreatePerson gn grp.id ("group") h
  set gdb := getOrCreatePerson db gn grp.id ("group") with hgdb
  set group1 : Person := { gdb.1 with
    alt_names := mergeAltNames gdb.1.alt_names
      ((namesFromArtist grp.names).drop 1) } with hg1
  have hfind1 : findById gdb.2.people group1.id = some gdb.1 := hfound
  have hle2 : dbLE gdb.2 (updatePerson gdb.2 group1) :=
    dbLE_updatePerson_of hfind1 (rowLE_alt_merge gdb.1 _)
  have h2 : wfPeople (updatePerson gdb.2 group1) :=
    wfPeople_updatePerson group1 h1
  have hfind2 : findById (updatePerson gdb.2 group1).people group1.id =
      some group1 := findById_map_update_eq group1 hfind1
  have hsm := ensureMembership_spec (updatePerson gdb.2 group1) group1.id pid
  have h3 : wfPeople (groupStep pid db grp gn) :=
    wfPeople_ensureMembership _ _ h2
  have hle3 : dbLE (updatePerson gdb.2 group1) (groupStep pid db grp gn) :=
    dbLE_ensureMembership _ _ _
  refine ⟨h3, dbLE_trans hle1 (dbLE_trans hle2 hle3), group1.id, hsm.2.2.1, ?_⟩
  refine ⟨group1, ?_, ?_⟩
  · show findById (ensureMembership (updatePerson gdb.2 group1) group1.id
      pid).people group1.id = some group1
    rw [hsm.1]
    exact hfind2
  · have := getOrCreatePerson_primary_or_alt db gn grp.id ("group") hgn
    rcases this with he | he
    · exact Or.inl he
    · exact Or.inr (mergeAltNames_mem_left _ _ gn he)

/-- The member loop preserves well-formedness and monotonicity, and
ensures an edge (with the member's name on its target) for every member
with a resolvable name. -/
theorem processMembers_spec (gid : Nat) (ms : List SubArtist) :
    ∀ db : CatalogDB, wfPeople db →
      wfPeople (processMembers gid db ms) ∧
        dbLE db (processMembers gid db ms) ∧
        ∀ mem ∈ ms, ∀ nm, memberName mem = some nm →
          ∃ mid, (⟨gid, mid⟩ : Membership) ∈
              (processMembers gid db ms).memberships ∧
            nameOn (processMembers gid db ms) mid nm := by
  induction ms with
  | nil =>
      intro db h
      exact ⟨h, dbLE_refl db, fun mem hmem => absurd hmem (List.not_mem_nil _)⟩
  | cons mem rest ih =>
      intro db h
      cases hname : memberName mem with
      | none =>
          have heq : processMembers gid db (mem :: rest) =
              processMembers gid db rest := by
            rw [processMembers, hname]
          rw [heq]
          obtain ⟨hwf, hle, hall⟩ := ih db h
          refine ⟨hwf, hle, ?_⟩
          intro m hm nm2 hm2
          rcases List.mem_cons.mp hm with he | he
          · subst he; rw [hname] at hm2; cases hm2
          · exact hall m he nm2 hm2
      | some nm =>
          have heq : processMembers gid db (mem :: rest) =
              processMembers gid (memberStep gid db mem nm) rest := by
            rw [processMembers, hname]
          rw [heq]
          obtain ⟨hwf1, hle1, mid, hedge, hnm⟩ :=
            memberStep_spec gid db mem nm h (memberName_ne_empty hname)
          obtain ⟨hwf2, hle2, hall⟩ := ih (memberStep gid db mem nm) hwf1
          refine ⟨hwf2, dbLE_trans hle1 hle2, ?_⟩
          intro m hm nm2 hm2
          rcases List.mem_cons.mp hm with he | he
          · subst he
            rw [hname] at hm2
            cases hm2
            exact ⟨mid, hle2.2 _ hedge, nameOn_mono hle2 hnm⟩
          · exact hall m he nm2 hm2

/-- The group loop preserves well-formedness and monotonicity, and ensures
a `(group → pid)` edge for every listed group with a resolvable name. -/
theorem processGroups_spec (pid : Nat) (gs : List SubArtist) :
    ∀ db : CatalogDB, wfPeople db →
      wfPeople (processGroups pid db gs) ∧
        dbLE db (processGroups pid db gs) ∧
        ∀ grp ∈ gs, ∀ gn, groupName grp = some gn →
          ∃ gid2, (⟨gid2, pid⟩ : Membership) ∈
              (processGroups pid db gs).memberships ∧
            nameOn (processGroups pid db gs) gid2 gn := by
  induction gs with
  | nil =>
      intro db h
      exact ⟨h, dbLE_refl db, fun grp hg => absurd hg (List.not_mem_nil _)⟩
  | cons grp rest ih =>
      intro db h
      cases hname : groupName grp with
      | none =>
          have heq : processGroups pid db (grp :: rest) =
              processGroups pid db rest := by
            rw [processGroups, hname]
          rw [heq]
          obtain ⟨hwf, hle, hall⟩ := ih db h
          refine ⟨hwf, hle, ?_⟩
          intro g hg gn2 hg2
          rcases List.mem_cons.mp hg with he | he
          · subst he; rw [hname] at hg2; cases hg2
          · exact hall g he gn2 hg2
      | some gn =>
          have heq : processGroups pid db (grp :: rest) =
              processGroups pid (groupStep pid db grp gn) rest := by
            rw [processGroups, hname]
          rw [heq]
          obtain ⟨hwf1, hle1, gid2, hedge, hgn⟩ :=
            groupStep_spec pid db grp gn h (groupName_ne_empty hname)
          obtain ⟨hwf2, hle2, hall⟩ := ih (groupStep pid db grp gn) hwf1
          refine ⟨hwf2, dbLE_trans hle1 hle2, ?_⟩
          intro g hg gn2 hg2
          rcases List.mem_cons.mp hg with he | he
          · subst he
            rw [hname] at hg2
            cases hg2
            exact ⟨gid2, hle2.2 _ hedge, nameOn_mono hle2 hgn⟩
          · exact hall g he gn2 hg2

/-! ## C4: `_upsert_artist_entity` group/membership construction -/

/-- **C4.** For every artist object: with a non-empty `members` list the
resulting `People` row has kind `'group'`; a `(group → member)` edge is
ensured for every member with a resolvable name (the target row carrying
that name); for every listed group, an edge `(group → this artist)` is
ensured; and any row whose kind was `'group'` before still has kind
`'group'` afterwards (kind moves only `person → group`). -/
theorem upsert_artist_entity_spec (db : CatalogDB) (a : ArtistObj)
    (h : wfPeople db) :
    (a.members ≠ [] →
      ∃ p, findById (upsertArtistEntity db a).2.people
          (upsertArtistEntity db a).1 = some p ∧ p.kind = ("group")) ∧
    (∀ mem ∈ a.members, ∀ nm, memberName mem = some nm →
      ∃ mid, (⟨(upsertArtistEntity db a).1, mid⟩ : Membership) ∈
          (upsertArtistEntity db a).2.memberships ∧
        nameOn (upsertArtistEntity db a).2 mid nm) ∧
    (∀ grp ∈ a.groups, ∀ gn, groupName grp = some gn →
      ∃ gid2, (⟨gid2, (upsertArtistEntity db a).1⟩ : Membership) ∈
          (upsertArtistEntity db a).2.memberships ∧
        nameOn (upsertArtistEntity db a).2 gid2 gn) ∧
    (∀ pid p, findById db.people pid = some p → p.kind = ("group") →
      ∃ q, findById (upsertArtistEntity db a).2.people pid = some q ∧
        q.kind = ("group")) := by
  obtain ⟨hle1, hfound, _, _, _, _⟩ :=
    getOrCreatePerson_spec (artistPrimary a) a.id (artistKind a) h
  have hwf1 : wfPeople (getOrCreatePerson db (artistPrimary a) a.id
      (artistKind a)).2 :=
    wfPeople_getOrCreatePerson _ _ _ h
  have hrow1LE : rowLE (getOrCreatePerson db (artistPrimary a) a.id
      (artistKind a)).1 (artistRow1 db a) :=
    rowLE_alt_merge _ _
  have hfound1 : findById (getOrCreatePerson db (artistPrimary a) a.id
      (artistKind a)).2.people (artistRow1 db a).id =
      some (getOrCreatePerson db (artistPrimary a) a.id (artistKind a)).1 :=
    hfound
  have hle2 : dbLE (getOrCreatePerson db (artistPrimary a) a.id
      (artistKind a)).2 (artistDB2 db a) :=
    dbLE_updatePerson_of hfound1 hrow1LE
  have hwf2 : wfPeople (artistDB2 db a) := wfPeople_updatePerson _ hwf1
  have hfind2 : findById (artistDB2 db a).people (artistRow1 db a).id =
      some (artistRow1 db a) :=
    findById_map_update_eq _ hfound1
  by_cases hmem : a.members = []
  · -- not a group: member loop skipped
    have hdb3 : artistDB3 db a = artistDB2 db a := by
      unfold artistDB3
      rw [if_neg (fun hc => hc hmem)]
    obtain ⟨hwf4, hle4, hallg⟩ :=
      processGroups_spec (artistRow1 db a).id a.groups (artistDB3 db a)
        (hdb3 ▸ hwf2)
    have hleAll : dbLE db (upsertArtistEntity db a).2 :=
      dbLE_trans hle1 (dbLE_trans hle2 (dbLE_trans (hdb3 ▸ dbLE_refl _) hle4))
    refine ⟨fun hc => absurd hmem hc, ?_, hallg, ?_⟩
    · intro mem hm
      rw [hmem] at hm
      exact absurd hm (List.not_mem_nil _)
    · intro pid p hp hpk
      obtain ⟨q, hq, hleq⟩ := hleAll.1 pid p hp
      exact ⟨q, hq, hleq.2.2.2 hpk⟩
  · -- a group: member loop runs
    have hdb3 : artistDB3 db a =
        processMembers (artistRow1 db a).id (artistDB2 db a) a.members := by
      unfold artistDB3
      rw [if_pos hmem]
    obtain ⟨hwf3, hle3, hallm⟩ :=
      processMembers_spec (artistRow1 db a).id a.members (artistDB2 db a) hwf2
    obtain ⟨hwf4, hle4, hallg⟩ :=
      processGroups_spec (artistRow1 db a).id a.groups (artistDB3 db a)
        (hdb3 ▸ hwf3)
    have hle34 : dbLE (artistDB2 db a) (upsertArtistEntity db a).2 :=
      dbLE_trans (hdb3 ▸ hle3) hle4
    have hleAll : dbLE db (upsertArtistEntity db a).2 :=
      dbLE_trans hle1 (dbLE_trans hle2 hle34)
    have hk : artistKind a = ("group") := by
      unfold artistKind
      rw [if_pos hmem]
    refine ⟨?_, ?_, hallg, ?_⟩
    · intro _
      have hPk : (getOrCreatePerson db (artistPrimary a) a.id
          (artistKind a)).1.kind = ("group") := by
        rw [hk]
        exact getOrCreatePerson_kind_group db (artistPrimary a) a.id
      have hrow1k : (artistRow1 db a).kind = ("group") := hPk
      obtain ⟨q, hq, hleq⟩ := hle34.1 (artistRow1 db a).id _ hfind2
      exact ⟨q, hq, hleq.2.2.2 hrow1k⟩
    · intro mem hm nm hnm
      obtain ⟨mid, hedge, hname⟩ := hallm mem hm nm hnm
      refine ⟨mid, hle4.2 _ (hdb3 ▸ hedge), nameOn_mono hle4 (hdb3 ▸ hname)⟩
    · intro pid p hp hpk
      obtain ⟨q, hq, hleq⟩ := hleAll.1 pid p hp
      exact ⟨q, hq, hleq.2.2.2 hpk⟩

/-- Closed witness for C4: importing a concrete two-member group into the
empty database. -/
theorem upsert_artist_entity_spec_witness :
    ∃ p, findById (upsertArtistEntity emptyDB
        ⟨some 1, [("G")], [⟨some 2, [("M")]⟩], []⟩).2.people
        (upsertArtistEntity emptyDB
          ⟨some 1, [("G")], [⟨some 2, [("M")]⟩], []⟩).1 = some p ∧
      p.kind = ("group") :=
  (upsert_artist_entity_spec emptyDB ⟨some 1, [("G")], [⟨some 2, [("M")]⟩], []⟩
      ⟨by simp [emptyDB], by simp [emptyDB]⟩).1 (by simp)

/-! ## `explode_names_from_string` and `_ARTIST_SPLIT_RE`

`_ARTIST_SPLIT_RE = re.compile(r"\s*(?:,|/|&| feat\. | feat | ft\. | x )\s*",
re.IGNORECASE)`.  `re.split` scans left to right for the leftmost match;
at a match position the greedy `\s*` backtracks from the longest
whitespace run until one of the alternatives (tried in order) matches,
then the trailing `\s*` greedily absorbs whitespace.  The scanner below
implements exactly this on character lists. -/

/-- Case-insensitive literal prefix match (the pattern tokens are
lower-case; `re.IGNORECASE` folds the subject). -/
def matchCI : List Char → List Char → Bool
  | [], _ => true
  | _ :: _, [] => false
  | t :: ts, c :: cs => t = c.toLower && matchCI ts cs

/-- The alternatives of `_ARTIST_SPLIT_RE`, in the pattern's order. -/
def altTokens : List (List Char) :=
  [[','], ['/'], ['&'],
    [' ', 'f', 'e', 'a', 't', '.', ' '],
    [' ', 'f', 'e', 'a', 't', ' '],
    [' ', 'f', 't', '.', ' '],
    [' ', 'x', ' ']]

def altMatchGo : List (List Char) → List Char → Option Nat
  | [], _ => none
  | t :: ts, cs => if matchCI t cs then some t.length else altMatchGo ts cs

/-- Length of the alternative (first in pattern order) matching at the
head of the input, if any. -/
def altMatch (cs : List Char) : Option Nat := altMatchGo altTokens cs

/-- Length of the leading whitespace run (regex `\s*`, greedy). -/
def wsLen : List Char → Nat
  | [] => 0
  | c :: cs => if isPySpace c then wsLen cs + 1 else 0

/-- Backtracking of the leading `\s*`: try consuming `k` whitespace
characters, longest first; return the chosen `k` and the alternative's
length. -/
def sepTry (cs : List Char) : Nat → Option (Nat × Nat)
  | 0 => (altMatch cs).map (fun t => (0, t))
  | k + 1 =>
      match altMatch (cs.drop (k + 1)) with
      | some t => some (k + 1, t)
      | none => sepTry cs k

/-- Total length of the `\s*(?:...)\s*` match starting at the head of the
input, if one starts here. -/
def sepMatch (cs : List Char) : Option Nat :=
  match sepTry cs (wsLen cs) with
  | some kt => some (kt.1 + kt.2 + wsLen (cs.drop (kt.1 + kt.2)))
  | none => none

/-- `re.split` scanner: find the leftmost match, cut, continue after it.
`fuel` only forces termination; `reSplit` supplies enough. -/
def reSplitGo (acc : List Char) : Nat → List Char → List (List Char)
  | 0, _ => [acc.reverse]
  | _ + 1, [] => [acc.reverse]
  | fuel + 1, c :: rest =>
      match sepMatch (c :: rest) with
      | some n => acc.reverse :: reSplitGo [] fuel ((c :: rest).drop n)
      | none => reSplitGo (c :: acc) fuel rest

/-- `_ARTIST_SPLIT_RE.split(s)` on a character list. -/
def reSplit (cs : List Char) : List (List Char) :=
  reSplitGo [] (cs.length + 1) cs

/-- The case-insensitive de-duplication loop of
`explode_names_from_string` (`seen` holds lower-cased keys; first
occurrence wins, original order kept). -/
def dedupeCI (seen : List (List Char)) : List (List Char) → List (List Char)
  | [] => []
  | p :: ps =>
      let key := p.map Char.toLower
      if key ∈ seen then dedupeCI seen ps
      else p :: dedupeCI (key :: seen) ps

/-- `explode_names_from_string` (anisongdb.py lines 101–111): split on
`_ARTIST_SPLIT_RE`, strip each part, drop empties, de-duplicate
case-insensitively. -/
def explode_names_from_string (s : Option String) : List String :=
  match s with
  | none => []
  | some str =>
      if str = ("") then []
      else
        (dedupeCI []
          (((reSplit str.data).map pyStripChars).filter
            (fun p => p ≠ []))).map String.mk

/-- Naive splitter following the claim's words: scan left to right; at
each position, if one of the separators matches (case-insensitively),
cut the fragment there and resume immediately after the separator —
no whitespace absorption. -/
def specSplitGo (acc : List Char) : Nat → List Char → List (List Char)
  | 0, _ => [acc.reverse]
  | _ + 1, [] => [acc.reverse]
  | fuel + 1, c :: rest =>
      match altMatch (c :: rest) with
      | some t => acc.reverse :: specSplitGo [] fuel ((c :: rest).drop t)
      | none => specSplitGo (c :: acc) fuel rest

def specSplit (cs : List Char) : List (List Char) :=
  specSplitGo [] (cs.length + 1) cs

/-- `explode_names_from_string` as the claim literally describes it:
split on the separators, trim, drop empties, de-duplicate
case-insensitively keeping first occurrences. -/
def explodeSpecNaive (s : Option String) : List String :=
  match s with
  | none => []
  | some str =>
      if str = ("") then []
      else
        (dedupeCI []
          (((specSplit str.data).map pyStripChars).filter
            (fun p => p ≠ []))).map String.mk

/-- Amended splitter: like the naive one, but each separator match also
absorbs the whitespace that follows it (as the regex's trailing `\s*`
does). -/
def simpleSplitGo (acc : List Char) : Nat → List Char → List (List Char)
  | 0, _ => [acc.reverse]
  | _ + 1, [] => [acc.reverse]
  | fuel + 1, c :: rest =>
      match altMatch (c :: rest) with
      | some t =>
          acc.reverse ::
            simpleSplitGo [] fuel
              ((c :: rest).drop (t + wsLen ((c :: rest).drop t)))
      | none => simpleSplitGo (c :: acc) fuel rest

def simpleSplit (cs : List Char) : List (List Char) :=
  simpleSplitGo [] (cs.length + 1) cs

/-- The amended claim's reading: separators absorb trailing whitespace. -/
def explodeSpecAmended (s : Option String) : List String :=
  match s with
  | none => []
  | some str =>
      if str = ("") then []
      else
        (dedupeCI []
          (((simpleSplit str.data).map pyStripChars).filter
            (fun p => p ≠ []))).map String.mk

/-! ### Lemmas about the split scanners -/

theorem altMatch_nil : altMatch [] = none := rfl

theorem altMatchGo_pos {ts : List (List Char)} {cs : List Char} {t : Nat}
    (hne : ∀ tok ∈ ts, tok ≠ []) (h : altMatchGo ts cs = some t) :
    1 ≤ t := by
  induction ts with
  | nil => cases h
  | cons tok rest ih =>
      rw [altMatchGo] at h
      split at h
      · cases h
        cases htok : tok with
        | nil => exact absurd htok (hne tok (List.mem_cons_self _ _))
        | cons a as => simp [htok]
      · exact ih (fun x hx => hne x (List.mem_cons_of_mem _ hx)) h

theorem altMatch_pos {cs : List Char} {t : Nat} (h : altMatch cs = some t) :
    1 ≤ t :=
  altMatchGo_pos (by decide) h

theorem sepTry_facts {cs : List Char} :
    ∀ {k j t : Nat}, sepTry cs k = some (j, t) →
      j ≤ k ∧ altMatch (cs.drop j) = some t ∧
        ∀ j', j < j' → j' ≤ k → altMatch (cs.drop j') = none := by
  intro k
  induction k with
  | zero =>
      intro j t h
      rw [sepTry] at h
      cases halt : altMatch cs with
      | none => rw [halt] at h; cases h
      | some t0 =>
          rw [halt] at h
          cases h
          exact ⟨Nat.le_refl 0, by simpa using halt,
            fun j' h1 h2 => absurd (Nat.lt_of_lt_of_le h1 h2) (lt_irrefl _)⟩
  | succ k ih =>
      intro j t h
      rw [sepTry] at h
      cases halt : altMatch (cs.drop (k + 1)) with
      | some t0 =>
          rw [halt] at h
          cases h
          exact ⟨Nat.le_refl _, halt,
            fun j' h1 h2 => absurd (Nat.lt_of_lt_of_le h1 h2) (lt_irrefl _)⟩
      | none =>
          rw [halt] at h
          obtain ⟨h1, h2, h3⟩ := ih h
          refine ⟨Nat.le_succ_of_le h1, h2, ?_⟩
          intro j' hj1 hj2
          by_cases hcase : j' = k + 1
          · exact hcase ▸ halt
          · exact h3 j' hj1 (by omega)

theorem sepTry_none {cs : List Char} :
    ∀ {k : Nat}, sepTry cs k = none →
      ∀ j ≤ k, altMatch (cs.drop j) = none := by
  intro k
  induction k with
  | zero =>
      intro h j hj
      interval_cases j
      rw [sepTry] at h
      cases halt : altMatch cs with
      | none => simpa using halt
      | some t0 => rw [halt] at h; cases h
  | succ k ih =>
      intro h j hj
      rw [sepTry] at h
      cases halt : altMatch (cs.drop (k + 1)) with
      | some t0 => rw [halt] at h; cases h
      | none =>
          rw [halt] at h
          by_cases hcase : j = k + 1
          · exact hcase ▸ halt
          · exact ih h j (by omega)

theorem sepMatch_none_alt {cs : List Char} (h : sepMatch cs = none) :
    altMatch cs = none := by
  unfold sepMatch at h
  cases htry : sepTry cs (wsLen cs) with
  | some kt => rw [htry] at h; cases h
  | none => simpa using sepTry_none htry 0 (Nat.zero_le _)

theorem sepMatch_pos {cs : List Char} {n : Nat} (h : sepMatch cs = some n) :
    1 ≤ n := by
  unfold sepMatch at h
  cases htry : sepTry cs (wsLen cs) with
  | none => rw [htry] at h; cases h
  | some kt =>
      rw [htry] at h
      cases h
      have := altMatch_pos (sepTry_facts htry).2.1
      omega

theorem reSplitGo_fuel {fuel : Nat} :
    ∀ {fuel' : Nat} {acc cs : List Char}, cs.length < fuel →
      cs.length < fuel' → reSplitGo acc fuel cs = reSplitGo acc fuel' cs := by
  induction fuel with
  | zero => intro fuel' acc cs h _; cases h
  | succ fuel ih =>
      intro fuel' acc cs h h'
      cases cs with
      | nil =>
          cases fuel' with
          | zero => cases h'
          | succ f => rfl
      | cons c rest =>
          cases fuel' with
          | zero => cases h'
          | succ f =>
              rw [reSplitGo, reSplitGo]
              cases hsep : sepMatch (c :: rest) with
              | some n =>
                  have hn := sepMatch_pos hsep
                  have hlen : ((c :: rest).drop n).length < fuel := by
                    rw [List.length_drop]
                    simp only [List.length_cons] at h ⊢
                    omega
                  have hlen' : ((c :: rest).drop n).length < f := by
                    rw [List.length_drop]
                    simp only [List.length_cons] at h' ⊢
                    omega
                  simp only [hsep]
                  rw [ih hlen hlen']
              | none =>
                  have hlen : rest.length < fuel := by
                    simp only [List.length_cons] at h
                    omega
                  have hlen' : rest.length < f := by
                    simp only [List.length_cons] at h'
                    omega
                  simp only [hsep]
                  exact ih hlen hlen'

theorem simpleSplitGo_fuel {fuel : Nat} :
    ∀ {fuel' : Nat} {acc cs : List Char}, cs.length < fuel →
      cs.length < fuel' →
      simpleSplitGo acc fuel cs = simpleSplitGo acc fuel' cs := by
  induction fuel with
  | zero => intro fuel' acc cs h _; cases h
  | succ fuel ih =>
      intro fuel' acc cs h h'
      cases cs with
      | nil =>
          cases fuel' with
          | zero => cases h'
          | succ f => rfl
      | cons c rest =>
          cases fuel' with
          | zero => cases h'
          | succ f =>
              rw [simpleSplitGo, simpleSplitGo]
              cases halt : altMatch (c :: rest) with
              | some t =>
                  have ht := altMatch_pos halt
                  have hlen : ((c :: rest).drop
                      (t + wsLen ((c :: rest).drop t))).length < fuel := by
                    rw [List.length_drop]
                    simp only [List.length_cons] at h ⊢
                    omega
                  have hlen' : ((c :: rest).drop
                      (t + wsLen ((c :: rest).drop t))).length < f := by
                    rw [List.length_drop]
                    simp only [List.length_cons] at h' ⊢
                    omega
                  simp only [halt]
                  rw [ih hlen hlen']
              | none =>
                  have hlen : rest.length < fuel := by
                    simp only [List.length_cons] at h
                    omega
                  have hlen' : rest.length < f := by
                    simp only [List.length_cons] at h'
                    omega
                  simp only [halt]
                  exact ih hlen hlen'

theorem wsLen_le (cs : List Char) : wsLen cs ≤ cs.length := by
  induction cs with
  | nil => exact Nat.le_refl 0
  | cons c rest ih =>
      rw [wsLen]
      split
      · simpa using ih
      · simp

theorem drop_head_ws {cs : List Char} :
    ∀ {j : Nat}, j < wsLen cs →
      ∃ c rest', cs.drop j = c :: rest' ∧ isPySpace c = true := by
  induction cs with
  | nil => intro j h; simp [wsLen] at h
  | cons c rest ih =>
      intro j h
      rw [wsLen] at h
      split at h
      · rename_i hws
        cases j with
        | zero => exact ⟨c, rest, rfl, hws⟩
        | succ j => exact ih (by omega)
      · omega

theorem take_ws {cs : List Char} {k : Nat} (hk : k ≤ wsLen cs) :
    ∀ c ∈ cs.take k, isPySpace c = true := by
  induction cs generalizing k with
  | nil => intro c hc; simp at hc
  | cons c0 rest ih =>
      intro c hc
      rw [wsLen] at hk
      split at hk
      · rename_i hws
        cases k with
        | zero => simp at hc
        | succ k =>
            rw [List.take_succ_cons] at hc
            rcases List.mem_cons.mp hc with he | he
            · exact he ▸ hws
            · exact ih (by omega) c he
      · interval_cases k
        simp at hc

theorem drop_cons_succ {cs tail : List Char} {c : Char} {j : Nat}
    (h : cs.drop j = c :: tail) : cs.drop (j + 1) = tail := by
  have : cs.drop (j + 1) = (cs.drop j).drop 1 := by
    rw [List.drop_drop]
  rw [this, h]
  rfl

/-- Shape of an alternative match: it starts either with a separator
character, or with a space followed by `f`/`x` (case-folded). -/
theorem altMatch_shape {c : Char} {cs : List Char} {t : Nat}
    (h : altMatch (c :: cs) = some t) :
    (c.toLower = (',') ∨ c.toLower = ('/') ∨ c.toLower = ('&')) ∨
      (c.toLower = (' ') ∧ ∃ c2 cs2, cs = c2 :: cs2 ∧
        (c2.toLower = ('f') ∨ c2.toLower = ('x'))) := by
  simp only [altMatch, altTokens, altMatchGo] at h
  split at h
  · rename_i h1
    simp only [matchCI, Bool.and_true, decide_eq_true_eq] at h1
    exact Or.inl (Or.inl h1.symm)
  split at h
  · rename_i h1
    simp only [matchCI, Bool.and_true, decide_eq_true_eq] at h1
    exact Or.inl (Or.inr (Or.inl h1.symm))
  split at h
  · rename_i h1
    simp only [matchCI, Bool.and_true, decide_eq_true_eq] at h1
    exact Or.inl (Or.inr (Or.inr h1.symm))
  split at h
  · rename_i h1
    cases cs with
    | nil => simp [matchCI] at h1
    | cons c2 cs2 =>
        simp only [matchCI, Bool.and_eq_true, decide_eq_true_eq] at h1
        exact Or.inr ⟨h1.1.symm, c2, cs2, rfl, Or.inl h1.2.1.symm⟩
  split at h
  · rename_i h1
    cases cs with
    | nil => simp [matchCI] at h1
    | cons c2 cs2 =>
        simp only [matchCI, Bool.and_eq_true, decide_eq_true_eq] at h1
        exact Or.inr ⟨h1.1.symm, c2, cs2, rfl, Or.inl h1.2.1.symm⟩
  split at h
  · rename_i h1
    cases cs with
    | nil => simp [matchCI] at h1
    | cons c2 cs2 =>
        simp only [matchCI, Bool.and_eq_true, decide_eq_true_eq] at h1
        exact Or.inr ⟨h1.1.symm, c2, cs2, rfl, Or.inl h1.2.1.symm⟩
  split at h
  · rename_i h1
    cases cs with
    | nil => simp [matchCI] at h1
    | cons c2 cs2 =>
        simp only [matchCI, Bool.and_eq_true, decide_eq_true_eq] at h1
        exact Or.inr ⟨h1.1.symm, c2, cs2, rfl, Or.inr h1.2.1.symm⟩
  cases h

/-- A Python-whitespace character case-folds to none of the characters an
alternative can start or continue with. -/
theorem ws_toLower_ne {c : Char} (h : isPySpace c = true) :
    c.toLower ≠ (',') ∧ c.toLower ≠ ('/') ∧ c.toLower ≠ ('&') ∧
      c.toLower ≠ ('f') ∧ c.toLower ≠ ('x') := by
  simp only [isPySpace, Bool.or_eq_true, decide_eq_true_eq] at h
  rcases h with h | h | h | h | h | h <;> subst h <;> exact ⟨by decide,
    by decide, by decide, by decide, by decide⟩

/-- No alternative matches strictly inside the whitespace run that the
backtracking `\s*` consumed: whichever `k` the backtracking settles on, all
earlier starting points fail. -/
theorem altMatch_below_fail {cs : List Char} {k t : Nat}
    (hk : k ≤ wsLen cs) (hmatch : altMatch (cs.drop k) = some t) :
    ∀ j, j < k → altMatch (cs.drop j) = none := by
  intro j hj
  cases halt : altMatch (cs.drop j) with
  | none => rfl
  | some t' =>
      exfalso
      obtain ⟨cj, tailj, hdropj, hwsj⟩ := drop_head_ws (Nat.lt_of_lt_of_le hj hk)
      rw [hdropj] at halt
      rcases altMatch_shape halt with hsep | ⟨hsp, c2, cs2, htail, hfx⟩
      · have := ws_toLower_ne hwsj
        rcases hsep with h | h | h
        · exact this.1 h
        · exact this.2.1 h
        · exact this.2.2.1 h
      · -- the match is a spaced alternative: its second character is at
        -- position j+1, which is still inside the run or at position k
        have hdropj1 : cs.drop (j + 1) = c2 :: cs2 := by
          rw [drop_cons_succ hdropj, htail]
        by_cases hcase : j + 1 < wsLen cs
        · obtain ⟨c1, tail1, hd1, hws1⟩ := drop_head_ws hcase
          rw [hd1] at hdropj1
          cases hdropj1
          have := ws_toLower_ne hws1
          rcases hfx with h | h
          · exact this.2.2.2.1 h
          · exact this.2.2.2.2 h
        · -- j + 1 = k = wsLen cs: the match at k starts at c2
          have hk1 : k = j + 1 := by omega
          rw [hk1, hdropj1] at hmatch
          rcases altMatch_shape hmatch with hsep2 | ⟨hsp2, _, _, _, _⟩
          · rcases hfx with h | h <;> rcases hsep2 with h2 | h2 | h2 <;>
              (rw [h] at h2; cases h2)
          · rcases hfx with h | h <;> (rw [h] at hsp2; cases hsp2)

/-- The amended scanner walks (into the accumulator) through a stretch of
positions where no alternative matches. -/
theorem simpleGo_walk :
    ∀ (k : Nat) (cs acc : List Char),
      (∀ j, j < k → altMatch (cs.drop j) = none) → k ≤ cs.length →
      simpleSplitGo acc (cs.length + 1) cs =
        simpleSplitGo ((cs.take k).reverse ++ acc) (cs.length - k + 1)
          (cs.drop k) := by
  intro k
  induction k with
  | zero => intro cs acc _ _; simp
  | succ k ih =>
      intro cs acc hfail hk
      cases cs with
      | nil => simp at hk
      | cons c rest =>
          have h0 : altMatch (c :: rest) = none := hfail 0 (Nat.succ_pos k)
          have hstep : simpleSplitGo acc ((c :: rest).length + 1) (c :: rest) =
              simpleSplitGo (c :: acc) (rest.length + 1) rest := by
            rw [show (c :: rest).length + 1 = (rest.length + 1) + 1 from by simp]
            rw [simpleSplitGo]
            simp only [h0]
          rw [hstep]
          have hrest := ih rest (c :: acc)
            (fun j hj => hfail (j + 1) (by omega)) (by simpa using hk)
          rw [hrest]
          have h1 : ((c :: rest).take (k + 1)).reverse ++ acc =
              (rest.take k).reverse ++ (c :: acc) := by
            simp [List.take_succ_cons, List.reverse_cons, List.append_assoc]
          have h2 : (c :: rest).length - (k + 1) = rest.length - k := by
            simp
          have h3 : (c :: rest).drop (k + 1) = rest.drop k := rfl
          rw [h1, h2, h3]

theorem dropWhile_append_of_all {p : Char → Bool} {a b : List Char}
    (h : ∀ c ∈ a, p c = true) :
    List.dropWhile p (a ++ b) = List.dropWhile p b := by
  induction a with
  | nil => rfl
  | cons c rest ih =>
      rw [List.cons_append,
        List.dropWhile_cons_of_pos (h c (List.mem_cons_self _ _))]
      exact ih (fun x hx => h x (List.mem_cons_of_mem _ hx))

theorem dropWhile_append_of_ne_nil {p : Char → Bool} {a b : List Char}
    (h : List.dropWhile p a ≠ []) :
    List.dropWhile p (a ++ b) = List.dropWhile p a ++ b := by
  induction a with
  | nil => exact absurd rfl h
  | cons c rest ih =>
      by_cases hp : p c = true
      · rw [List.cons_append, List.dropWhile_cons_of_pos hp,
          List.dropWhile_cons_of_pos hp]
        apply ih
        rwa [List.dropWhile_cons_of_pos hp] at h
      · rw [List.cons_append, List.dropWhile_cons_of_neg hp,
          List.dropWhile_cons_of_neg hp]
        simp

/-- Stripping is blind to an all-whitespace suffix. -/
theorem pyStripChars_append_ws {xs ws : List Char}
    (h : ∀ c ∈ ws, isPySpace c = true) :
    pyStripChars (xs ++ ws) = pyStripChars xs := by
  unfold pyStripChars
  by_cases hx : List.dropWhile isPySpace xs = []
  · have hxall : ∀ c ∈ xs, isPySpace c = true :=
      List.dropWhile_eq_nil_iff.mp hx
    have h1 : List.dropWhile isPySpace (xs ++ ws) = [] := by
      rw [dropWhile_append_of_all hxall]
      exact List.dropWhile_eq_nil_iff.mpr h
    rw [h1, hx]
  · have h1 : List.dropWhile isPySpace (xs ++ ws) =
        List.dropWhile isPySpace xs ++ ws :=
      dropWhile_append_of_ne_nil hx
    rw [h1, List.reverse_append,
      dropWhile_append_of_all (fun c hc => h c (List.mem_reverse.mp hc))]

/-- Core equivalence: after stripping, the parts produced by the faithful
`re.split` scanner and by the amended whitespace-absorbing scanner
coincide. -/
theorem reSimple_strip_eq :
    ∀ (N : Nat) (cs : List Char), cs.length ≤ N → ∀ acc,
      (reSplitGo acc (cs.length + 1) cs).map pyStripChars =
        (simpleSplitGo acc (cs.length + 1) cs).map pyStripChars := by
  intro N
  induction N with
  | zero =>
      intro cs hlen acc
      have : cs = [] := List.length_eq_zero.mp (Nat.le_zero.mp hlen)
      subst this
      rfl
  | succ N ih =>
      intro cs hlen acc
      cases cs with
      | nil => rfl
      | cons c rest =>
          cases hsep : sepMatch (c :: rest) with
          | none =>
              have halt : altMatch (c :: rest) = none := sepMatch_none_alt hsep
              have hre : reSplitGo acc ((c :: rest).length + 1) (c :: rest) =
                  reSplitGo (c :: acc) (rest.length + 1) rest := by
                rw [show (c :: rest).length + 1 = (rest.length + 1) + 1 from
                  by simp]
                rw [reSplitGo]
                simp only [hsep]
              have hsi : simpleSplitGo acc ((c :: rest).length + 1)
                  (c :: rest) =
                  simpleSplitGo (c :: acc) (rest.length + 1) rest := by
                rw [show (c :: rest).length + 1 = (rest.length + 1) + 1 from
                  by simp]
                rw [simpleSplitGo]
                simp only [halt]
              rw [hre, hsi]
              have hr : rest.length ≤ N := by
                simp only [List.length_cons] at hlen
                omega
              exact ih rest hr (c :: acc)
          | some n =>
              -- decompose the separator match
              unfold sepMatch at hsep
              cases htry : sepTry (c :: rest) (wsLen (c :: rest)) with
              | none => rw [htry] at hsep; cases hsep
              | some kt =>
                  rw [htry] at hsep
                  obtain ⟨k, t⟩ := kt
                  obtain ⟨hk_le, halt_k, _⟩ := sepTry_facts htry
                  have hn : n = k + t +
                      wsLen ((c :: rest).drop (k + t)) := by
                    cases hsep; rfl
                  have ht1 : 1 ≤ t := altMatch_pos halt_k
                  have hfail : ∀ j, j < k →
                      altMatch ((c :: rest).drop j) = none :=
                    altMatch_below_fail hk_le halt_k
                  have hkle2 : k ≤ (c :: rest).length :=
                    Nat.le_trans hk_le (wsLen_le _)
                  -- the re scanner cuts immediately
                  have hre : reSplitGo acc ((c :: rest).length + 1)
                      (c :: rest) =
                      acc.reverse :: reSplitGo [] ((c :: rest).length)
                        ((c :: rest).drop n) := by
                    rw [show (c :: rest).length + 1 =
                      ((c :: rest).length) + 1 from rfl]
                    rw [reSplitGo]
                    simp only [sepMatch, htry, hn]
                  -- the amended scanner walks through the k whitespace
                  -- characters, then cuts
                  have hwalk := simpleGo_walk k (c :: rest) acc hfail hkle2
                  -- drop k is non-empty since an alternative matches there
                  obtain ⟨ck, restk, hdk⟩ : ∃ ck restk,
                      (c :: rest).drop k = ck :: restk := by
                    cases hd : (c :: rest).drop k with
                    | nil => rw [hd, altMatch_nil] at halt_k; cases halt_k
                    | cons ck restk => exact ⟨ck, restk, rfl⟩
                  have hlenk : ((c :: rest).drop k).length =
                      (c :: rest).length - k := List.length_drop _ _
                  have hcut : simpleSplitGo ((( c :: rest).take k).reverse ++
                      acc) ((c :: rest).length - k + 1) ((c :: rest).drop k) =
                      (((c :: rest).take k).reverse ++ acc).reverse ::
                        simpleSplitGo [] ((c :: rest).length - k)
                          (((c :: rest).drop k).drop
                            (t + wsLen (((c :: rest).drop k).drop t))) := by
                    rw [hdk] at halt_k ⊢
                    have : (c :: rest).length - k + 1 =
                        ((c :: rest).length - k) + 1 := rfl
                    rw [this]
                    have hexp : (c :: rest).length - k =
                        (ck :: restk).length := by
                      rw [← hdk, hlenk]
                    rw [hexp]
                    rw [show (ck :: restk).length + 1 =
                      ((ck :: restk).length) + 1 from rfl]
                    rw [simpleSplitGo]
                    simp only [halt_k]
                  -- suffixes agree
                  have hsuffix : ((c :: rest).drop k).drop
                      (t + wsLen (((c :: rest).drop k).drop t)) =
                      (c :: rest).drop n := by
                    rw [List.drop_drop, List.drop_drop]
                    congr 1
                    omega
                  rw [hwalk, hcut, hsuffix]
                  -- normalize fuels and apply the induction hypothesis
                  have hslen : ((c :: rest).drop n).length <
                      (c :: rest).length := by
                    rw [List.length_drop]
                    have : 1 ≤ n := by omega
                    simp only [List.length_cons]
                    omega
                  have hre2 : reSplitGo [] ((c :: rest).length)
                      ((c :: rest).drop n) =
                      reSplitGo [] (((c :: rest).drop n).length + 1)
                        ((c :: rest).drop n) :=
                    reSplitGo_fuel hslen (Nat.lt_succ_self _)
                  have hklt : k < (c :: rest).length := by
                    have h1 : ((c :: rest).drop k).length = restk.length + 1 := by
                      rw [hdk]; rfl
                    rw [hlenk] at h1
                    omega
                  have hsi2 : simpleSplitGo [] ((c :: rest).length - k)
                      ((c :: rest).drop n) =
                      simpleSplitGo [] (((c :: rest).drop n).length + 1)
                        ((c :: rest).drop n) := by
                    have g1 : ((c :: rest).drop n).length <
                        (c :: rest).length - k := by
                      rw [List.length_drop]
                      omega
                    exact simpleSplitGo_fuel g1 (Nat.lt_succ_self _)
                  rw [hre, hre2, hsi2]
                  simp only [List.map_cons]
                  congr 1
                  · -- heads: the walked-over whitespace strips away
                    rw [List.reverse_append, List.reverse_reverse]
                    exact (pyStripChars_append_ws
                      (take_ws hk_le)).symm
                  · -- tails: induction hypothesis on the common suffix
                    exact ih ((c :: rest).drop n)
                      (by
                        have : (c :: rest).length ≤ N + 1 := hlen
                        simp only [List.length_cons] at this
                        rw [List.length_drop]
                        simp only [List.length_cons]
                        omega) []

/-! ## C5: `explode_names_from_string` -/

/-- **C5 counterexample.** On `"a, feat b"` the code returns
`["a", "feat b"]`: the comma's separator match greedily absorbs the
following space (trailing `\s*`), so the spaced separator `' feat '` loses
its leading space and is not split on — while the claim's reading
(split on commas and on `feat`) yields `["a", "b"]`. -/
theorem explode_names_counterexample :
    explode_names_from_string (some ("a, feat b")) ≠
      explodeSpecNaive (some ("a, feat b")) := by
  decide

/-- **C5 (amended).** For every input, `explode_names_from_string` splits
the credit string on commas, slashes, ampersands and the
whitespace-delimited separators `' feat. '`, `' feat '`, `' ft. '`,
`' x '` (case-insensitively), **where each separator match also absorbs
the whitespace that follows it, so a whitespace-delimited separator
immediately following another separator is not recognized**; it trims
surrounding whitespace, drops empty fragments, and removes
case-insensitive duplicates keeping the first occurrence in original
order; a `None` or empty input yields the empty list. -/
theorem explode_names_spec_amended (s : Option String) :
    explode_names_from_string s = explodeSpecAmended s := by
  cases s with
  | none => rfl
  | some str =>
      unfold explode_names_from_string explodeSpecAmended
      by_cases he : str = ("")
      · simp [he]
      · simp only [if_neg he]
        have key := reSimple_strip_eq str.data.length str.data
          (Nat.le_refl _) []
        unfold reSplit simpleSplit
        rw [key]

/-! ## `parse_use_type_and_seq` (anisongdb.py lines 73–98) -/

/-- Regex `\w` on the ASCII range: `[a-zA-Z0-9_]`. -/
def isWordChar (c : Char) : Bool := c.isAlphanum || c = ('_')

def isPrefixOfChars : List Char → List Char → Bool
  | [], _ => true
  | _ :: _, [] => false
  | k :: ks, c :: cs => k = c && isPrefixOfChars ks cs

/-- `\b` before a match position: start of string or previous char
non-word (the keys all start and end with word characters). -/
def boundaryB : Option Char → Bool
  | none => true
  | some c => ! isWordChar c

/-- `\b` after the matched key: end of string or next char non-word. -/
def afterB : List Char → Bool
  | [] => true
  | c :: _ => ! isWordChar c

/-- `re.search(rf"\b{key}\b", low)` as a whole-word scan. -/
def searchWordGo (key : List Char) (prev : Option Char) :
    List Char → Bool
  | [] => false
  | c :: rest =>
      (boundaryB prev && isPrefixOfChars key (c :: rest) &&
        afterB ((c :: rest).drop key.length)) ||
      searchWordGo key (some c) rest

def searchWord (key : List Char) (cs : List Char) : Bool :=
  searchWordGo key none cs

/-- `_TYPE_MAP` in Python-dict insertion order. -/
def typeMapKeys : List (List Char × String) :=
  [([('o'), ('p')], ("OP")),
    ([('o'), ('p'), ('e'), ('n'), ('i'), ('n'), ('g')], ("OP")),
    ([('e'), ('d')], ("ED")),
    ([('e'), ('n'), ('d'), ('i'), ('n'), ('g')], ("ED")),
    ([('i'), ('n')], ("IN")),
    ([('i'), ('n'), ('s'), ('e'), ('r'), ('t')], ("IN")),
    ([('i'), ('n'), ('s'), ('e'), ('r'), ('t'), (' '),
      ('s'), ('o'), ('n'), ('g')], ("IN"))]

/-- The `for key, val in _TYPE_MAP.items()` whole-word lookup loop. -/
def findTypeGo : List (List Char × String) → List Char → Option String
  | [], _ => none
  | kv :: rest, low =>
      if searchWord kv.1 low then some kv.2 else findTypeGo rest low

/-- Fallback `re.search(r"\b(op|ed|in)\b", low)`, upper-cased group:
leftmost match, alternatives in pattern order. -/
def fallbackTypeGo (prev : Option Char) : List Char → Option String
  | [] => none
  | c :: rest =>
      if boundaryB prev && isPrefixOfChars [('o'), ('p')] (c :: rest) &&
          afterB ((c :: rest).drop 2) then some ("OP")
      else if boundaryB prev && isPrefixOfChars [('e'), ('d')] (c :: rest) &&
          afterB ((c :: rest).drop 2) then some ("ED")
      else if boundaryB prev && isPrefixOfChars [('i'), ('n')] (c :: rest) &&
          afterB ((c :: rest).drop 2) then some ("IN")
      else fallbackTypeGo (some c) rest

/-- `_num_re.search(low)`: the first maximal digit run. -/
def firstDigitRun : List Char → Option (List Char)
  | [] => none
  | c :: rest =>
      if c.isDigit then some (c :: rest.takeWhile Char.isDigit)
      else firstDigitRun rest

def digitsToNat (ds : List Char) : Nat :=
  ds.foldl (fun n c => n * 10 + (c.toNat - 48)) 0

/-- `low = s.lower().strip().replace("_", " ").replace("-", " ")`. -/
def normalizeSongType (str : String) : List Char :=
  (pyStripChars (str.data.map Char.toLower)).map
    (fun c => if c = ('_') then (' ') else if c = ('-') then (' ') else c)

/-- `parse_use_type_and_seq` (anisongdb.py lines 73–98). -/
def parse_use_type_and_seq (s : Option String) :
    Option String × Option Int :=
  match s with
  | none => (none, none)
  | some str =>
      if str = ("") then (none, none)
      else
        let low := normalizeSongType str
        let seq : Option Int :=
          (firstDigitRun low).map (fun ds => Int.ofNat (digitsToNat ds))
        match findTypeGo typeMapKeys low with
        | some v => (some v, seq)
        | none =>
            match fallbackTypeGo none low with
            | some v => (some v, seq)
            | none => (none, seq)

/-! ## `import_songs_for_anime` processing loop (lines 375–453) -/

/-- `_first(*vals)` on string fields: first truthy value. -/
def firstTruthy : List (Option String) → Option String
  | [] => none
  | v :: rest =>
      match v with
      | some s => if s ≠ ("") then some s else firstTruthy rest
      | none => firstTruthy rest

/-- Credits for one role: prefer the artist-object array (upserting each
entity), else fall back to exploding the free-text credit string. -/
def creditRole (db : CatalogDB) (songId : Nat) (objs : List ArtistObj)
    (fallback : Option String) (role : String) : CatalogDB :=
  match objs with
  | [] =>
      ((explode_names_from_string fallback).filter
        (fun nm => nm ≠ (""))).foldl
        (fun db nm => ensureCredit db songId nm role none) db
  | _ :: _ =>
      objs.foldl
        (fun db a =>
          let pdb := upsertArtistEntity db a
          ensureCreditById pdb.2 songId pdb.1 role) db

/-- Loop state of `import_songs_for_anime`: the database, the
`seen_pairs` key set, and `out_songs` (by song id). -/
structure ImportAcc where
  db : CatalogDB
  seen : List (String × String × Option Int)
  out : List Nat
deriving DecidableEq, Repr

/-- One iteration of the `for r in results` loop of
`import_songs_for_anime`: filter entries without a truthy song name or
song type, filter unusable use-types, de-duplicate on
`(songName, songType, annSongId)`, then upsert song / credits / link and
collect the song. -/
def songImportStep (anime : Anime) (st : ImportAcc) (r : SongEntry) :
    ImportAcc :=
  match firstTruthy [r.songName, r.name] with
  | none => st
  | some song_name =>
      match r.songType with
      | none => st
      | some song_type_raw =>
          if song_type_raw = ("") then st
          else
            match (parse_use_type_and_seq (some song_type_raw)).1 with
            | none => st
            | some use_type =>
                if ¬ (use_type = ("OP") ∨ use_type = ("ED") ∨
                    use_type = ("IN")) then st
                else
                  let notes := ("imported from AniSongDB: ") ++ song_type_raw
                  let key := (song_name, song_type_raw, r.annSongId)
                  if key ∈ st.seen then st
                  else
                    let seen := st.seen ++ [key]
                    let is_dub := r.isDub.getD false
                    let is_reb := r.isRebroadcast.getD false
                    let audio := (firstTruthy [r.audio, r.hq, r.mq]).getD ("")
                    let sdb := getOrCreateSong st.db song_name audio
                    let db1 := creditRole sdb.2 sdb.1.id r.artists
                      r.songArtist ("artist")
                    let db2 := creditRole db1 sdb.1.id r.composers
                      r.songComposer ("composer")
                    let db3 := creditRole db2 sdb.1.id r.arrangers
                      r.songArranger ("arranger")
                    let db4 := linkOnce db3 sdb.1.id anime.id use_type
                      (parse_use_type_and_seq (some song_type_raw)).2
                      (some notes) (some is_dub) (some is_reb)
                    let out := if sdb.1.id ∈ st.out then st.out
                      else st.out ++ [sdb.1.id]
                    ⟨db4, seen, out⟩

/-- The post-fetch processing of `import_songs_for_anime` over the fetched
`results`. -/
def songImportLoop (anime : Anime) (results : List SongEntry)
    (db : CatalogDB) : ImportAcc :=
  results.foldl (songImportStep anime) ⟨db, [], []⟩

theorem songImportStep_out_nodup (anime : Anime) (r : SongEntry)
    (st : ImportAcc) (h : st.out.Nodup) :
    (songImportStep anime st r).out.Nodup := by
  unfold songImportStep
  split
  · exact h
  split
  · exact h
  split
  · exact h
  split
  · exact h
  split
  · exact h
  simp only []
  split
  · exact h
  simp only []
  split
  · exact h
  · rename_i hmem
    simp [List.nodup_append, h, hmem]

theorem songImportLoop_out_nodup (anime : Anime) :
    ∀ (results : List SongEntry) (acc : ImportAcc), acc.out.Nodup →
      (results.foldl (songImportStep anime) acc).out.Nodup := by
  intro results
  induction results with
  | nil => intro acc h; exact h
  | cons r rest ih =>
      intro acc h
      rw [List.foldl_cons]
      exact ih _ (songImportStep_out_nodup anime r acc h)

/-! ## C6: filtering and de-duplication in `import_songs_for_anime` -/

/-- **C6.** In the processing loop of `import_songs_for_anime`: an entry
lacking a truthy song name or song type produces no change at all; an
entry whose `songType` parses to a use-type outside `{OP, ED, IN}`
produces no change; an entry whose `(songName, songType, annSongId)` key
was already seen produces no change (each triple is processed at most
once); and the returned `out_songs` list never contains duplicates. -/
theorem anime_import_dedup :
    (∀ (anime : Anime) (st : ImportAcc) (r : SongEntry),
      firstTruthy [r.songName, r.name] = none ∨ r.songType = none ∨
        r.songType = some ("") → songImportStep anime st r = st) ∧
    (∀ (anime : Anime) (st : ImportAcc) (r : SongEntry) (s : String),
      r.songType = some s →
      ((parse_use_type_and_seq (some s)).1 = none ∨
        ∃ ut, (parse_use_type_and_seq (some s)).1 = some ut ∧
          ut ≠ ("OP") ∧ ut ≠ ("ED") ∧ ut ≠ ("IN")) →
      songImportStep anime st r = st) ∧
    (∀ (anime : Anime) (st : ImportAcc) (r : SongEntry) (nm s : String),
      firstTruthy [r.songName, r.name] = some nm → r.songType = some s →
      (nm, s, r.annSongId) ∈ st.seen → songImportStep anime st r = st) ∧
    (∀ (anime : Anime) (results : List SongEntry) (db : CatalogDB),
      (songImportLoop anime results db).out.Nodup) := by
  refine ⟨?_, ?_, ?_, ?_⟩
  · intro anime st r h
    rcases h with h | h | h
    · simp only [songImportStep, h]
    · cases hf : firstTruthy [r.songName, r.name] with
      | none => simp only [songImportStep, hf]
      | some nm => simp only [songImportStep, hf, h]
    · cases hf : firstTruthy [r.songName, r.name] with
      | none => simp only [songImportStep, hf]
      | some nm => simp [songImportStep, hf, h]
  · intro anime st r s hst hp
    cases hf : firstTruthy [r.songName, r.name] with
    | none => simp only [songImportStep, hf]
    | some nm =>
        simp only [songImportStep, hf, hst]
        by_cases he : s = ("")
        · simp [he]
        · rw [if_neg he]
          rcases hp with hp | ⟨ut, hp, h1, h2, h3⟩
          · simp only [hp]
          · simp only [hp]
            rw [if_pos]
            rintro (hc | hc | hc)
            · exact h1 hc
            · exact h2 hc
            · exact h3 hc
  · intro anime st r nm s hf hst hseen
    simp only [songImportStep, hf, hst]
    by_cases he : s = ("")
    · simp [he]
    · rw [if_neg he]
      cases hp : (parse_use_type_and_seq (some s)).1 with
      | none => rfl
      | some ut =>
          simp only []
          rw [if_pos hseen]
          split <;> rfl
  · intro anime results db
    exact songImportLoop_out_nodup anime results ⟨db, [], []⟩ List.nodup_nil

/-- Closed witness for C6: a concrete already-seen entry is skipped. -/
theorem anime_import_dedup_witness :
    songImportStep ⟨0, none, none, none, none, none⟩
      ⟨emptyDB, [(("S"), ("OP"), none)], []⟩
      ⟨some ("S"), none, some ("OP"), none, none, none, none, none, none,
        [], [], [], none, none, none, none, none, none, none, []⟩ =
      ⟨emptyDB, [(("S"), ("OP"), none)], []⟩ :=
  anime_import_dedup.2.2.1 ⟨0, none, none, none, none, none⟩
    ⟨emptyDB, [(("S"), ("OP"), none)], []⟩
    ⟨some ("S"), none, some ("OP"), none, none, none, none, none, none,
      [], [], [], none, none, none, none, none, none, none, []⟩
    ("S") ("OP") rfl rfl (List.mem_singleton_self _)

/-! ## AMQ master-list batch drivers

`scrape_amq_master_list.py` and `sync_amq_master_list.py`.  The master
list JSON (`animeMap → songLinks → OP/ED/INS → songId`) is modelled
structurally; per-id network outcomes are inputs of the model. -/

/-- One `songLinks` entry; `songId` kept only when it is an `int`. -/
structure SongLinkEntry where
  songId : Option Int
deriving DecidableEq, Repr

/-- One `animeMap` value with its `songLinks` lists for `OP`/`ED`/`INS`. -/
structure AnimeMapEntry where
  opLinks : List SongLinkEntry
  edLinks : List SongLinkEntry
  insLinks : List SongLinkEntry
deriving DecidableEq, Repr

structure MasterList where
  masterListId : String
  animeMap : List AnimeMapEntry
deriving DecidableEq, Repr

def linkIdsOf (ls : List SongLinkEntry) : List Int :=
  ls.filterMap (fun l => l.songId)

def entryIds (e : AnimeMapEntry) : List Int :=
  linkIdsOf e.opLinks ++ linkIdsOf e.edLinks ++ linkIdsOf e.insLinks

/-- The id set both scripts collect (`out: Set[int]` / `ids: Set[int]`). -/
def masterIds (m : MasterList) : Finset Int :=
  (m.animeMap.map entryIds).flatten.toFinset

/-- `extract_unique_amq_song_ids` (scrape script lines 39–49):
`sorted(out)`. -/
def extractUniqueAmqSongIds (m : MasterList) : List Int :=
  (masterIds m).sort (· ≤ ·)

/-- Saved state of `sync_amq_master_list.py` (`updated_at` omitted). -/
structure SyncState where
  masterListId : String
  amq_ids : List Int
  etag : Option String
  last_modified : Option String
deriving DecidableEq, Repr

/-- Outcome of the conditional GET of the master list. -/
inductive FetchResult where
  | failure
  | notModified
  | ok (master : MasterList) (etag : Option String)
      (lastModified : Option String)
deriving DecidableEq

/-- `main` of `sync_amq_master_list.py` (lines 62–152), as a function from
the loaded state and the fetch outcome to the list of posted import ids
(in posting order; every id is posted exactly once, whatever status the
POST returns) and the state written back (`none` = file untouched). -/
def syncMain (st : SyncState) (fr : FetchResult) :
    List Int × Option SyncState :=
  match fr with
  | .failure => ([], none)
  | .notModified => ([], none)
  | .ok master etag lastMod =>
      let old_ids := st.amq_ids.toFinset
      let new_ids := masterIds master
      let to_add := (new_ids \ old_ids).sort (· ≤ ·)
      (to_add,
        some ⟨master.masterListId, new_ids.sort (· ≤ ·), etag, lastMod⟩)

/-- `one_import` status classification (scrape script lines 89–110):
404 → `not_found`, 409 → `ok_conflict`, 2xx → `ok`, anything else
raises. -/
def one_import_status (code : Nat) : Option String :=
  if code = 404 then some ("not_found")
  else if code = 409 then some ("ok_conflict")
  else if 200 ≤ code ∧ code < 300 then some ("ok")
  else none

/-- The codes `amqImportWithRetries` retries on: 429 and 5xx. -/
def retryableCode (code : Nat) : Bool :=
  code = 429 || (500 ≤ code && code < 600)

/-- An attempt outcome: `some code` is an HTTP response, `none` a network
error / timeout.  An attempt is retried when it is a network error or a
retryable status. -/
def retryableAttempt : Option Nat → Bool
  | none => true
  | some code => retryableCode code

/-- The retry loop of `amqImportWithRetries` (lines 112–132):
`attempt` starts at 1, `tries = 6`; non-retryable bad statuses and
exhausted retries end in `"error"`.  `fuel` is the structural bound
(`7 - attempt`). -/
def retryGo (att : Nat → Option Nat) : Nat → Nat → String
  | _, 0 => ("error")
  | attempt, fuel + 1 =>
      match att attempt with
      | some code =>
          match one_import_status code with
          | some s => s
          | none =>
              if retryableCode code then
                if attempt ≥ 6 then ("error")
                else retryGo att (attempt + 1) fuel
              else ("error")
      | none =>
          if attempt ≥ 6 then ("error") else retryGo att (attempt + 1) fuel

def amqImportWithRetries (att : Nat → Option Nat) : String :=
  retryGo att 1 6

/-- The worker's marking rule (lines 141–149): statuses starting with
`"ok"` (`status.startswith("ok")`), and `"not_found"`, are recorded in
`done`; errors are not. -/
def markDone (s : String) : Bool :=
  isPrefixOfChars [('o'), ('k')] s.data || s = ("not_found")

/-- A final status is marked exactly when its code was 2xx, 409 or 404. -/
def goodCode (code : Nat) : Bool :=
  (200 ≤ code && code < 300) || code = 409 || code = 404

/-- One run of the scrape driver for a given id universe and per-id
attempt outcomes. -/
structure ScrapeRun where
  master : MasterList
  att : Int → Nat → Option Nat

/-- `remaining_ids = [i for i in amq_ids if i not in state.done]`
(scrape script line 193): the ids the run requests, in order. -/
def requestedIds (master : MasterList) (done : Finset Int) : List Int :=
  (extractUniqueAmqSongIds master).filter (fun i => i ∉ done)

/-- The `done` set after one run: every requested id whose import ended in
a marked status is added (`mark_done_idempotent`); the file is rewritten
with the full set. -/
def runScrape (done : Finset Int) (run : ScrapeRun) : Finset Int :=
  done ∪ ((requestedIds run.master done).filter
    (fun i => markDone (amqImportWithRetries (run.att i)))).toFinset

/-- Iterated runs (each run reloads the state file the previous run
wrote). -/
def runAll (done : Finset Int) : List ScrapeRun → Finset Int
  | [] => done
  | r :: rs => runAll (runScrape done r) rs

/-- The ids requested by the `k`-th run of a run sequence. -/
def requestedAt (done : Finset Int) : List ScrapeRun → Nat → List Int
  | [], _ => []
  | r :: _, 0 => requestedIds r.master done
  | r :: rs, k + 1 => requestedAt (runScrape done r) rs k

theorem status_mark {code : Nat} {s : String}
    (h : one_import_status code = some s) :
    markDone s = true ∧ goodCode code = true := by
  unfold one_import_status at h
  split_ifs at h with h1 h2 h3
  · cases h; exact ⟨by decide, by simp [goodCode, h1]⟩
  · cases h; exact ⟨by decide, by simp [goodCode, h2]⟩
  · cases h
    refine ⟨by decide, ?_⟩
    simp only [goodCode, Bool.or_eq_true, Bool.and_eq_true, decide_eq_true_eq]
    exact Or.inl (Or.inl ⟨h3.1, h3.2⟩)

theorem status_none {code : Nat} (h : one_import_status code = none) :
    goodCode code = false := by
  unfold one_import_status at h
  split_ifs at h with h1 h2 h3
  cases hb : goodCode code with
  | false => rfl
  | true =>
      exfalso
      simp only [goodCode, Bool.or_eq_true, Bool.and_eq_true,
        decide_eq_true_eq] at hb
      rcases hb with (hb | hb) | hb
      · exact h3 hb
      · exact h2 hb
      · exact h1 hb

/-- Characterization of the retry loop: the final status is a marked one
exactly when some attempt `k ≤ 6` returned a good (2xx/409/404) code and
every earlier attempt was retryable (network error, 429 or 5xx). -/
theorem retryGo_mark_iff (att : Nat → Option Nat) :
    ∀ (fuel attempt : Nat), attempt + fuel = 7 → 1 ≤ attempt →
      (markDone (retryGo att attempt fuel) = true ↔
        ∃ k, attempt ≤ k ∧ k ≤ 6 ∧
          (∃ c, att k = some c ∧ goodCode c = true) ∧
          ∀ j, attempt ≤ j → j < k → retryableAttempt (att j) = true) := by
  intro fuel
  induction fuel with
  | zero =>
      intro attempt h7 h1
      have ha : attempt = 7 := by omega
      subst ha
      rw [retryGo]
      constructor
      · intro h; exact absurd h (by decide)
      · rintro ⟨k, hk1, hk2, _, _⟩; omega
  | succ fuel ih =>
      intro attempt h7 h1
      rw [retryGo]
      cases hatt : att attempt with
      | some code =>
          cases hst : one_import_status code with
          | some s =>
              have hm := status_mark hst
              simp only [hst]
              constructor
              · intro _
                exact ⟨attempt, Nat.le_refl _, by omega, ⟨code, hatt, hm.2⟩,
                  fun j hj1 hj2 => absurd (Nat.lt_of_le_of_lt hj1 hj2)
                    (lt_irrefl _)⟩
              · intro _; exact hm.1
          | none =>
              have hg : goodCode code = false := status_none hst
              simp only [hst]
              by_cases hr : retryableCode code = true
              · rw [if_pos hr]
                by_cases h6 : attempt ≥ 6
                · rw [if_pos h6]
                  constructor
                  · intro h; exact absurd h (by decide)
                  · rintro ⟨k, hk1, hk2, ⟨c, hc, hgc⟩, _⟩
                    have hke : k = attempt := by omega
                    rw [hke, hatt] at hc
                    cases hc
                    rw [hgc] at hg
                    cases hg
                · rw [if_neg h6, ih (attempt + 1) (by omega) (by omega)]
                  constructor
                  · rintro ⟨k, hk1, hk2, hc, hpre⟩
                    refine ⟨k, by omega, hk2, hc, ?_⟩
                    intro j hj1 hj2
                    by_cases hje : j = attempt
                    · subst hje
                      rw [hatt]
                      simpa [retryableAttempt] using hr
                    · exact hpre j (by omega) hj2
                  · rintro ⟨k, hk1, hk2, ⟨c, hc, hgc⟩, hpre⟩
                    have hkne : k ≠ attempt := by
                      intro he
                      rw [he, hatt] at hc
                      cases hc
                      rw [hgc] at hg
                      cases hg
                    exact ⟨k, by omega, hk2, ⟨c, hc, hgc⟩,
                      fun j hj1 hj2 => hpre j (by omega) hj2⟩
              · have hr' : retryableCode code = false := by
                  cases h : retryableCode code
                  · rfl
                  · exact absurd h hr
                rw [if_neg (by simp [hr'])]
                constructor
                · intro h; exact absurd h (by decide)
                · rintro ⟨k, hk1, hk2, ⟨c, hc, hgc⟩, hpre⟩
                  by_cases hke : k = attempt
                  · rw [hke, hatt] at hc
                    cases hc
                    rw [hgc] at hg
                    cases hg
                  · have hj := hpre attempt (Nat.le_refl _) (by omega)
                    rw [hatt] at hj
                    simp [retryableAttempt, hr'] at hj
      | none =>
          simp only []
          by_cases h6 : attempt ≥ 6
          · rw [if_pos h6]
            constructor
            · intro h; exact absurd h (by decide)
            · rintro ⟨k, hk1, hk2, ⟨c, hc, _⟩, _⟩
              have hke : k = attempt := by omega
              rw [hke, hatt] at hc
              cases hc
          · rw [if_neg h6, ih (attempt + 1) (by omega) (by omega)]
            constructor
            · rintro ⟨k, hk1, hk2, hc, hpre⟩
              refine ⟨k, by omega, hk2, hc, ?_⟩
              intro j hj1 hj2
              by_cases hje : j = attempt
              · subst hje
                rw [hatt]
                rfl
              · exact hpre j (by omega) hj2
            · rintro ⟨k, hk1, hk2, ⟨c, hc, hgc⟩, hpre⟩
              have hkne : k ≠ attempt := by
                intro he
                rw [he, hatt] at hc
                cases hc
              exact ⟨k, by omega, hk2, ⟨c, hc, hgc⟩,
                fun j hj1 hj2 => hpre j (by omega) hj2⟩

theorem mem_requestedIds {master : MasterList} {done : Finset Int}
    {i : Int} :
    i ∈ requestedIds master done ↔ i ∈ masterIds master ∧ i ∉ done := by
  unfold requestedIds extractUniqueAmqSongIds
  rw [List.mem_filter]
  simp [Finset.mem_sort]

/-! ## C7: resumable scrape driver -/

/-- **C7.** An AMQ song id recorded in the resume state's `done` set is
never requested again in any later run; after a run, an id is in `done`
exactly when it was there before or it was requested and its import ended
in a marked status; a final status is marked exactly when some attempt
(≤ 6) returned HTTP 2xx, 409 or 404 after only retryable attempts; and an
id whose attempt ended unmarked (error status or exhausted retries) is
requested again by the next run that lists it. -/
theorem scrape_resume_spec :
    (∀ (done : Finset Int) (runs : List ScrapeRun) (k : Nat) (i : Int),
      i ∈ done → i ∉ requestedAt done runs k) ∧
    (∀ (done : Finset Int) (run : ScrapeRun) (i : Int),
      i ∈ runScrape done run ↔ i ∈ done ∨
        (i ∈ requestedIds run.master done ∧
          markDone (amqImportWithRetries (run.att i)) = true)) ∧
    (∀ att : Nat → Option Nat,
      markDone (amqImportWithRetries att) = true ↔
        ∃ k, 1 ≤ k ∧ k ≤ 6 ∧ (∃ c, att k = some c ∧ goodCode c = true) ∧
          ∀ j, 1 ≤ j → j < k → retryableAttempt (att j) = true) ∧
    (∀ (done : Finset Int) (run run2 : ScrapeRun) (i : Int),
      i ∈ requestedIds run.master done →
      markDone (amqImportWithRetries (run.att i)) = false →
      i ∈ masterIds run2.master →
      i ∈ requestedIds run2.master (runScrape done run)) := by
  refine ⟨?_, ?_, ?_, ?_⟩
  · intro done runs
    induction runs generalizing done with
    | nil =>
        intro k i _
        cases k <;> simp [requestedAt]
    | cons r rs ih =>
        intro k i hi
        cases k with
        | zero =>
            rw [requestedAt]
            intro hmem
            exact (mem_requestedIds.mp hmem).2 hi
        | succ k =>
            rw [requestedAt]
            exact ih (runScrape done r) k i (Finset.mem_union_left _ hi)
  · intro done run i
    unfold runScrape
    simp [Finset.mem_union, List.mem_toFinset, List.mem_filter]
  · intro att
    exact retryGo_mark_iff att 6 1 rfl (Nat.le_refl 1)
  · intro done run run2 i h1 h2 h3
    rw [mem_requestedIds] at h1 ⊢
    refine ⟨h3, ?_⟩
    intro hmem
    rcases Finset.mem_union.mp hmem with hd | hf
    · exact h1.2 hd
    · have := (List.mem_filter.mp (List.mem_toFinset.mp hf)).2
      rw [h2] at this
      cases this

/-- Closed witness for C7: a done id is not requested by a concrete run. -/
theorem scrape_resume_spec_witness :
    (5 : Int) ∉ requestedAt {5}
      [⟨⟨("1"), [⟨[⟨some 5⟩], [], []⟩]⟩, fun _ _ => some 200⟩] 0 :=
  scrape_resume_spec.1 {5}
    [⟨⟨("1"), [⟨[⟨some 5⟩], [], []⟩]⟩, fun _ _ => some 200⟩] 0 5
    (Finset.mem_singleton_self 5)

/-! ## C8: delta-sync driver -/

/-- **C8.** On a `304 Not Modified` answer the sync posts nothing and does
not rewrite the state file.  Otherwise it posts one import request for
exactly each id in the new master list but not in the saved state, in
ascending order without duplicates, and the saved state's `amq_ids` become
the sorted complete id set of the new master list. -/
theorem sync_amq_delta (st : SyncState) (fr : FetchResult) :
    (fr = FetchResult.notModified → syncMain st fr = ([], none)) ∧
    (∀ master etag lm, fr = FetchResult.ok master etag lm →
      (syncMain st fr).1 =
          ((masterIds master) \ st.amq_ids.toFinset).sort (· ≤ ·) ∧
        (∀ i : Int, i ∈ (syncMain st fr).1 ↔
          i ∈ masterIds master ∧ i ∉ st.amq_ids.toFinset) ∧
        (syncMain st fr).1.Sorted (· ≤ ·) ∧
        (syncMain st fr).1.Nodup ∧
        ∃ st', (syncMain st fr).2 = some st' ∧
          st'.amq_ids = (masterIds master).sort (· ≤ ·)) := by
  constructor
  · intro h
    subst h
    rfl
  · intro master etag lm h
    subst h
    refine ⟨rfl, ?_, ?_, ?_, ⟨_, rfl, rfl⟩⟩
    · intro i
      simp [syncMain, Finset.mem_sort, Finset.mem_sdiff]
    · show (((masterIds master) \ st.amq_ids.toFinset).sort
        (· ≤ ·)).Sorted (· ≤ ·)
      exact Finset.sort_sorted _ _
    · show (((masterIds master) \ st.amq_ids.toFinset).sort (· ≤ ·)).Nodup
      exact Finset.sort_nodup _ _

/-- Closed witness for C8: a concrete fetch adds exactly the unseen id. -/
theorem sync_amq_delta_witness :
    (7 : Int) ∈ (syncMain ⟨("0"), [3], none, none⟩
        (FetchResult.ok ⟨("1"), [⟨[⟨some 3⟩, ⟨some 7⟩], [], []⟩]⟩
          none none)).1 ↔
      (7 : Int) ∈ masterIds ⟨("1"), [⟨[⟨some 3⟩, ⟨some 7⟩], [], []⟩]⟩ ∧
        (7 : Int) ∉ ([3] : List Int).toFinset :=
  ((sync_amq_delta ⟨("0"), [3], none, none⟩
      (FetchResult.ok ⟨("1"), [⟨[⟨some 3⟩, ⟨some 7⟩], [], []⟩]⟩
        none none)).2
    ⟨("1"), [⟨[⟨some 3⟩, ⟨some 7⟩], [], []⟩]⟩ none none rfl).2.1 7

end AniSong
